import Mathlib

/-!
# Verification of the range-resolution transform layer (`src/transforms/at-range.js`)

This file gives a shallow embedding of the at-range transform functions of the
repository together with the document model they operate on.  The tree data
model, the document queries (`getTextsAtRange`, `getClosestBlock`, ...) and the
key-addressed primitive operations (`splitNodeByKey`, `moveNodeByKey`, ...) are
not part of `src/`; they are modelled from the spec (sections 3 and 6) as
explicit executable functions.  Every transform function of `at-range.js` that
a claim refers to is translated statement by statement from the source.

Strings are modelled as lists of characters (`Str`), node keys as natural
numbers minted from a monotone counter carried by the transform state, and the
sequence of primitive operations issued by a composite transform is recorded as
an explicit trace (`Op`) next to the resulting document.
-/

namespace Slate

/-- Character strings of the JS source, modelled as lists of characters. -/
abbrev Str := List Char

/-- A formatting mark: `type` plus `data`, compared structurally
(spec section 3). -/
structure Mark where
  typ : String
  data : List (String × String)
deriving DecidableEq, Repr

/-- The `kind` discriminator of a node (spec section 3). -/
inductive Kind where
  | document
  | block
  | inline
  | text
deriving DecidableEq, Repr

/-- A document-tree node, modelled from the spec (section 3): text leaves carry
a string and a per-leaf set of marks; `Document`, `Block` and `Inline` nodes
carry a key, a type, a void flag, data and an ordered list of children. -/
inductive Node where
  | text (key : Nat) (content : Str) (marks : List Mark)
  | elem (kind : Kind) (key : Nat) (typ : String) (isVoid : Bool)
      (data : List (String × String)) (nodes : List Node)

namespace Node

/-- The key of a node. -/
def key : Node → Nat
  | .text k _ _ => k
  | .elem _ k _ _ _ _ => k

/-- The kind of a node. -/
def kind : Node → Kind
  | .text _ _ _ => .text
  | .elem kd _ _ _ _ _ => kd

/-- Whether the node is a text leaf. -/
def isText : Node → Bool
  | .text _ _ _ => true
  | .elem _ _ _ _ _ _ => false

/-- The void flag of a node (text leaves are never void). -/
def isVoid : Node → Bool
  | .text _ _ _ => false
  | .elem _ _ _ v _ _ => v

/-- The children of a node (none for text leaves). -/
def childNodes : Node → List Node
  | .text _ _ _ => []
  | .elem _ _ _ _ _ ns => ns

mutual

/-- All keys of the subtree, root first, in preorder. -/
def keys : Node → List Nat
  | .text k _ _ => [k]
  | .elem _ k _ _ _ ns => k :: keysList ns

/-- All keys of a forest. -/
def keysList : List Node → List Nat
  | [] => []
  | n :: ns => n.keys ++ keysList ns

end

mutual

/-- The concatenated text of the subtree (spec: a node's `text`). -/
def textOf : Node → Str
  | .text _ s _ => s
  | .elem _ _ _ _ _ ns => textOfList ns

/-- The concatenated text of a forest. -/
def textOfList : List Node → Str
  | [] => []
  | n :: ns => n.textOf ++ textOfList ns

end

/-- The `length` property of a node: the length of its text. -/
def length (n : Node) : Nat := n.textOf.length

/-- The `isEmpty` property of a node: it has no text. -/
def isEmpty (n : Node) : Bool := n.textOf.isEmpty

mutual

/-- Whether the subtree contains a node with the given key (including the
root itself). -/
def hasKey : Node → Nat → Bool
  | .text k _ _, key => k == key
  | .elem _ k _ _ _ ns, key => k == key || hasKeyList ns key

/-- Whether a forest contains a node with the given key. -/
def hasKeyList : List Node → Nat → Bool
  | [], _ => false
  | n :: ns, key => hasKey n key || hasKeyList ns key

end

/-- `hasDescendant`: whether a strict descendant has the given key. -/
def hasDescendant (n : Node) (key : Nat) : Bool :=
  hasKeyList n.childNodes key

mutual

/-- The chain of nodes from this node down to (and including) the node with
the given key, or `none` when the key does not occur in the subtree. -/
def chainTo : Node → Nat → Option (List Node)
  | .text k s m, key =>
      if k == key then some [.text k s m] else none
  | .elem kd k t v d ns, key =>
      if k == key then some [.elem kd k t v d ns]
      else
        match chainToList ns key with
        | some c => some (.elem kd k t v d ns :: c)
        | none => none

/-- The chain to a key inside a forest (first child that contains it wins). -/
def chainToList : List Node → Nat → Option (List Node)
  | [], _ => none
  | n :: ns, key =>
      match chainTo n key with
      | some c => some c
      | none => chainToList ns key

end

mutual

/-- Replace the content and marks of the text leaf with the given key. -/
def editLeaf (k : Nat) (f : Str → List Mark → Str × List Mark) : Node → Node
  | .text k' s m =>
      if k' == k then
        let r := f s m
        .text k' r.1 r.2
      else .text k' s m
  | .elem kd k' t v d ns => .elem kd k' t v d (editLeafList k f ns)

/-- `editLeaf` over a forest. -/
def editLeafList (k : Nat) (f : Str → List Mark → Str × List Mark) :
    List Node → List Node
  | [] => []
  | n :: ns => editLeaf k f n :: editLeafList k f ns

end

mutual

/-- Remove the descendant with the given key, returning the remaining tree and
the removed subtree; `none` when the key does not name a strict descendant. -/
def takeOut : Node → Nat → Option (Node × Node)
  | .text _ _ _, _ => none
  | .elem kd k t v d ns, key =>
      match takeOutList ns key with
      | some r => some (.elem kd k t v d r.1, r.2)
      | none => none

/-- `takeOut` over a forest. -/
def takeOutList : List Node → Nat → Option (List Node × Node)
  | [], _ => none
  | n :: ns, key =>
      if n.key == key then some (ns, n)
      else
        match takeOut n key with
        | some r => some (r.1 :: ns, r.2)
        | none =>
          match takeOutList ns key with
          | some r => some (n :: r.1, r.2)
          | none => none

end

mutual

/-- Insert `c` at position `i` of the children of the node with key `pk`
(appending when `i` exceeds the current arity, as JS splicing does). -/
def insertChild : Node → Nat → Nat → Node → Option Node
  | .text _ _ _, _, _, _ => none
  | .elem kd k t v d ns, pk, i, c =>
      if k == pk then some (.elem kd k t v d (ns.take i ++ [c] ++ ns.drop i))
      else
        match insertChildList ns pk i c with
        | some ns' => some (.elem kd k t v d ns')
        | none => none

/-- `insertChild` over a forest. -/
def insertChildList : List Node → Nat → Nat → Node → Option (List Node)
  | [], _, _, _ => none
  | n :: ns, pk, i, c =>
      match insertChild n pk i c with
      | some n' => some (n' :: ns)
      | none =>
        match insertChildList ns pk i c with
        | some ns' => some (n :: ns')
        | none => none

end

mutual

/-- Split a node at a text offset into two siblings: the first half keeps the
original keys, the spine of the second half receives fresh keys from the
counter (modelled from the spec, section 6: `splitNodeByKey`). -/
def splitNode : Node → Nat → Nat → Node × Node × Nat
  | .text k s m, off, c => (.text k (s.take off) m, .text c (s.drop off) m, c + 1)
  | .elem kd k t v d ns, off, c =>
      let r := splitChildren ns off c
      (.elem kd k t v d r.1, .elem kd r.2.2 t v d r.2.1, r.2.2 + 1)

/-- Split a forest at a text offset: children wholly before the offset stay in
the first half, the child containing the offset is split recursively. -/
def splitChildren : List Node → Nat → Nat → List Node × List Node × Nat
  | [], _, c => ([], [], c)
  | n :: ns, off, c =>
      if off ≤ n.length then
        let r := splitNode n off c
        ([r.1], r.2.1 :: ns, r.2.2)
      else
        let r := splitChildren ns (off - n.length) c
        (n :: r.1, r.2.1, r.2.2)

end

mutual

/-- Replace the descendant with the given key by the two halves of its split. -/
def splitAtKey : Node → Nat → Nat → Nat → Option (Node × Nat)
  | .text _ _ _, _, _, _ => none
  | .elem kd k t v d ns, key, off, c =>
      match splitAtKeyList ns key off c with
      | some r => some (.elem kd k t v d r.1, r.2)
      | none => none

/-- `splitAtKey` over a forest. -/
def splitAtKeyList : List Node → Nat → Nat → Nat → Option (List Node × Nat)
  | [], _, _, _ => none
  | n :: ns, key, off, c =>
      if n.key == key then
        let r := splitNode n off c
        some (r.1 :: r.2.1 :: ns, r.2.2)
      else
        match splitAtKey n key off c with
        | some r => some (r.1 :: ns, r.2)
        | none =>
          match splitAtKeyList ns key off c with
          | some r => some (n :: r.1, r.2)
          | none => none

end

mutual

/-- Give this node and every node below it a fresh key from the counter. -/
def regenNode : Node → Nat → Node × Nat
  | .text _ s m, c => (.text c s m, c + 1)
  | .elem kd _ t v d ns, c =>
      let r := regenForest ns (c + 1)
      (.elem kd c t v d r.1, r.2)

/-- `regenNode` over a forest. -/
def regenForest : List Node → Nat → List Node × Nat
  | [], c => ([], c)
  | n :: ns, c =>
      let r := regenNode n c
      let r' := regenForest ns r.2
      (r.1 :: r'.1, r'.2)

end

/-- `fragment.mapDescendants(child => child.regenerateKey())`: every strict
descendant of the root receives a fresh key; the root key is kept. -/
def regenDescendants : Node → Nat → Node × Nat
  | .text k s m, c => (.text k s m, c)
  | .elem kd k t v d ns, c =>
      let r := regenForest ns c
      (.elem kd k t v d r.1, r.2)

end Node

/-- A text leaf as returned by the text queries. -/
structure TextLeaf where
  key : Nat
  content : Str
  marks : List Mark
deriving DecidableEq, Repr

namespace Node

mutual

/-- The text leaves of the subtree, in document order (spec: `getTexts`). -/
def texts : Node → List TextLeaf
  | .text k s m => [⟨k, s, m⟩]
  | .elem _ _ _ _ _ ns => textsList ns

/-- The text leaves of a forest. -/
def textsList : List Node → List TextLeaf
  | [] => []
  | n :: ns => texts n ++ textsList ns

end

mutual

/-- `getOffset`: the text offset at which the subtree holding the given key
starts, measured inside this node.  The source asserts the key is a
descendant; absent keys contribute offset 0 here, unreachable under the
hypotheses of the theorems below. -/
def getOffset : Node → Nat → Nat
  | .text _ _ _, _ => 0
  | .elem _ _ _ _ _ ns, key => offsetInList ns key

/-- `getOffset` over a forest: sum the lengths of the subtrees before the one
containing the key. -/
def offsetInList : List Node → Nat → Nat
  | [], _ => 0
  | n :: ns, key =>
      if n.hasKey key then (if n.key == key then 0 else getOffset n key)
      else n.length + offsetInList ns key

end

/-- `getHighestChild`: the direct child that is, or contains, the key. -/
def highestChild (n : Node) (key : Nat) : Option Node :=
  n.childNodes.find? (fun c => c.hasKey key)

/-- `getNextSibling` inside this node's direct children. -/
def nextSiblingIn (n : Node) (key : Nat) : Option Node :=
  match n.childNodes.findIdx? (fun c => c.key == key) with
  | some i => n.childNodes[i + 1]?
  | none => none

end Node

/-- `getAncestors`: the chain from the root down to the parent of the key
(the root included), empty when the key is absent. -/
def ancestorsOf (root : Node) (key : Nat) : List Node :=
  ((root.chainTo key).getD []).dropLast

/-- `getClosest`: the closest ancestor (root excluded) matching the
predicate. -/
def getClosest (root : Node) (key : Nat) (p : Node → Bool) : Option Node :=
  ((ancestorsOf root key).drop 1).reverse.find? p

/-- `getFurthest`: the furthest ancestor (root excluded) matching the
predicate. -/
def getFurthest (root : Node) (key : Nat) (p : Node → Bool) : Option Node :=
  ((ancestorsOf root key).drop 1).find? p

/-- `getClosestBlock`. -/
def closestBlock (root : Node) (key : Nat) : Option Node :=
  getClosest root key (fun n => n.kind == .block)

/-- `getClosestInline`. -/
def closestInline (root : Node) (key : Nat) : Option Node :=
  getClosest root key (fun n => n.kind == .inline)

/-- `getParent`: the direct parent of the node with the given key. -/
def parentOf (root : Node) (key : Nat) : Option Node :=
  (ancestorsOf root key).getLast?

/-- `getDescendant` / `assertDescendant`. -/
def descendantAt (root : Node) (key : Nat) : Option Node :=
  (root.chainTo key).bind List.getLast?

/-- The last node of the longest common prefix of two chains. -/
def lastCommon : List Node → List Node → Option Node
  | a :: as, b :: bs =>
      if a.key == b.key then
        match lastCommon as bs with
        | some n => some n
        | none => some a
      else none
  | _, _ => none

/-- `getCommonAncestor` of two keys: the deepest node containing both. -/
def commonAncestor (root : Node) (k1 k2 : Nat) : Option Node :=
  match root.chainTo k1, root.chainTo k2 with
  | some c1, some c2 => lastCommon c1 c2
  | _, _ => none

/-- `getNextText`: the text leaf after the one with the given key. -/
def nextText (root : Node) (key : Nat) : Option TextLeaf :=
  match root.texts.findIdx? (fun t => t.key == key) with
  | some i => root.texts[i + 1]?
  | none => none

/-- `getTextsAtRange`: the text leaves spanned by a range — the slice of the
document's text-leaf sequence from the start key through the end key. -/
def textsAtRange (root : Node) (startKey endKey : Nat) : List TextLeaf :=
  let ts := root.texts
  match ts.findIdx? (fun t => t.key == startKey),
        ts.findIdx? (fun t => t.key == endKey) with
  | some i, some j => (ts.drop i).take (j - i + 1)
  | _, _ => []

/-- Order-preserving deduplication of a node list by key (the `toOrderedSet`
step of the source's queries). -/
def dedupByKey : List Node → List Node
  | [] => []
  | n :: ns => n :: (dedupByKey ns).filter (fun m => m.key != n.key)

/-- `getBlocks`: the deepest block ancestor of each text leaf, deduplicated,
in document order (modelled from the spec, section 3). -/
def blocksOf (root : Node) : List Node :=
  dedupByKey (root.texts.filterMap (fun t => closestBlock root t.key))

/-- `getBlocksAtRange`. -/
def blocksAtRange (root : Node) (startKey endKey : Nat) : List Node :=
  dedupByKey ((textsAtRange root startKey endKey).filterMap
    (fun t => closestBlock root t.key))

/-- Modelled from the spec (section 4.2): `getMarksAtRange` is the set of
marks present across all text in the range; per the data model of section 3
marks are treated per-leaf, so this is the union of the marks of the spanned
leaves. -/
def marksAtRange (root : Node) (startKey endKey : Nat) : List Mark :=
  (textsAtRange root startKey endKey).flatMap (fun t => t.marks)

/-- `block.merge({ nodes: block.nodes.clear() })`: strip a template node of
its children. -/
def clearChildren : Node → Node
  | .elem kd k t v d _ => .elem kd k t v d []
  | .text k s m => .text k s m

/-- The index of the last list element satisfying the predicate (the
`reduce` of `wrapBlockAtRange`, where a later hit overwrites an earlier
one). -/
def lastIdxWhere (p : Node → Bool) (ns : List Node) : Option Nat :=
  (ns.enum.filter (fun x => p x.2)).getLast?.map (fun x => x.1)

/-- A selection: anchor/focus pair plus the backwardness flag
(spec section 3). -/
structure Range where
  anchorKey : Nat
  anchorOffset : Nat
  focusKey : Nat
  focusOffset : Nat
  isBackward : Bool
deriving DecidableEq, Repr

namespace Range

/-- `isCollapsed`: anchor and focus coincide. -/
def isCollapsed (r : Range) : Bool :=
  r.anchorKey == r.focusKey && r.anchorOffset == r.focusOffset

/-- `isExpanded`. -/
def isExpanded (r : Range) : Bool := !r.isCollapsed

/-- Derived `startKey`. -/
def startKey (r : Range) : Nat := if r.isBackward then r.focusKey else r.anchorKey

/-- Derived `startOffset`. -/
def startOffset (r : Range) : Nat :=
  if r.isBackward then r.focusOffset else r.anchorOffset

/-- Derived `endKey`. -/
def endKey (r : Range) : Nat := if r.isBackward then r.anchorKey else r.focusKey

/-- Derived `endOffset`. -/
def endOffset (r : Range) : Nat :=
  if r.isBackward then r.anchorOffset else r.focusOffset

/-- `collapseToStart`. -/
def collapseToStart (r : Range) : Range :=
  ⟨r.startKey, r.startOffset, r.startKey, r.startOffset, false⟩

/-- `collapseToEnd`. -/
def collapseToEnd (r : Range) : Range :=
  ⟨r.endKey, r.endOffset, r.endKey, r.endOffset, false⟩

/-- `moveForward`: move both points forward by `n` characters. -/
def moveForward (r : Range) (n : Nat) : Range :=
  { r with anchorOffset := r.anchorOffset + n, focusOffset := r.focusOffset + n }

/-- `isAtStartOf(node)`: the start point sits at offset 0 of the node's first
text leaf. -/
def isAtStartOfN (r : Range) (n : Node) : Bool :=
  match n.texts.head? with
  | some t => r.startKey == t.key && r.startOffset == 0
  | none => false

/-- `isAtEndOf(node)`: the end point sits at the end of the node's last text
leaf. -/
def isAtEndOfN (r : Range) (n : Node) : Bool :=
  match n.texts.getLast? with
  | some t => r.endKey == t.key && r.endOffset == t.content.length
  | none => false

end Range

/-- A recorded primitive operation (the external interface of spec section 6).
Each primitive carries the effective normalize flag it was invoked with. -/
inductive Op where
  | addMark (key index len : Nat) (mark : Mark) (normalize : Bool)
  | removeMark (key index len : Nat) (mark : Mark) (normalize : Bool)
  | removeText (key index len : Nat) (normalize : Bool)
  | insertText (key index : Nat) (text : Str) (marks : List Mark) (normalize : Bool)
  | splitNode (key offset : Nat) (normalize : Bool)
  | removeNode (key : Nat) (normalize : Bool)
  | insertNode (parentKey index : Nat) (node : Node) (normalize : Bool)
  | moveNode (key newParentKey newIndex : Nat) (normalize : Bool)
  | normalizeNode (key : Nat)
  | normalizeDoc

namespace Op

/-- Whether this recorded step invokes the schema-repair pass: a primitive
with its normalize flag set, or an explicit normalization call. -/
def normalizes : Op → Bool
  | .addMark _ _ _ _ n => n
  | .removeMark _ _ _ _ n => n
  | .removeText _ _ _ n => n
  | .insertText _ _ _ _ n => n
  | .splitNode _ _ n => n
  | .removeNode _ n => n
  | .insertNode _ _ _ n => n
  | .moveNode _ _ _ n => n
  | .normalizeNode _ => true
  | .normalizeDoc => true

end Op

/-- The options object of the at-range functions: an optional normalize flag
(`none` models an absent property, i.e. JS `undefined`). -/
structure Opts where
  normalize : Option Bool
deriving DecidableEq, Repr

/-- The empty options object `{}`. -/
def noOpts : Opts := ⟨none⟩

/-- The module-level constant `OPTS = { normalize: false }` (at-range.js,
lines 14-16). -/
def OPTS : Opts := ⟨some false⟩

/-- The state carried by a `Transform`: the current document, the key-mint
counter of the process-wide key generator, and the trace of primitive
operations issued so far. -/
structure TState where
  document : Node
  nextKey : Nat
  ops : List Op

/-! ## The primitive key-addressed operation layer (modelled from the spec,
section 6).  Each primitive appends its record to the trace and commits the
updated document; a primitive whose key does not resolve leaves the document
unchanged (an integrity fault stops the source by throwing; the state keeps
the last committed document either way). -/

/-- `addMarkByKey` (per-leaf mark model, spec section 3). -/
def addMarkByKey (ts : TState) (key index len : Nat) (mark : Mark)
    (o : Opts) : TState :=
  { ts with
    document := ts.document.editLeaf key
      (fun s m => (s, if m.contains mark then m else m ++ [mark])),
    ops := ts.ops ++ [.addMark key index len mark (o.normalize.getD true)] }

/-- `removeMarkByKey`. -/
def removeMarkByKey (ts : TState) (key index len : Nat) (mark : Mark)
    (o : Opts) : TState :=
  { ts with
    document := ts.document.editLeaf key
      (fun s m => (s, m.filter (fun x => x != mark))),
    ops := ts.ops ++ [.removeMark key index len mark (o.normalize.getD true)] }

/-- `removeTextByKey`. -/
def removeTextByKey (ts : TState) (key index len : Nat) (o : Opts) : TState :=
  { ts with
    document := ts.document.editLeaf key
      (fun s m => (s.take index ++ s.drop (index + len), m)),
    ops := ts.ops ++ [.removeText key index len (o.normalize.getD true)] }

/-- `insertTextByKey`. -/
def insertTextByKey (ts : TState) (key index : Nat) (text : Str)
    (marks : List Mark) (o : Opts) : TState :=
  { ts with
    document := ts.document.editLeaf key
      (fun s m => (s.take index ++ text ++ s.drop index, m)),
    ops := ts.ops ++ [.insertText key index text marks (o.normalize.getD true)] }

/-- `splitNodeByKey`. -/
def splitNodeByKey (ts : TState) (key offset : Nat) (o : Opts) : TState :=
  let ops := ts.ops ++ [.splitNode key offset (o.normalize.getD true)]
  match Node.splitAtKey ts.document key offset ts.nextKey with
  | some r => { document := r.1, nextKey := r.2, ops := ops }
  | none => { ts with ops := ops }

/-- `removeNodeByKey`. -/
def removeNodeByKey (ts : TState) (key : Nat) (o : Opts) : TState :=
  let ops := ts.ops ++ [.removeNode key (o.normalize.getD true)]
  match ts.document.takeOut key with
  | some r => { ts with document := r.1, ops := ops }
  | none => { ts with ops := ops }

/-- `insertNodeByKey`. -/
def insertNodeByKey (ts : TState) (parentKey index : Nat) (node : Node)
    (o : Opts) : TState :=
  let ops := ts.ops ++ [.insertNode parentKey index node (o.normalize.getD true)]
  match Node.insertChild ts.document parentKey index node with
  | some d => { ts with document := d, ops := ops }
  | none => { ts with ops := ops }

/-- `moveNodeByKey`: remove the node, then insert it under the new parent. -/
def moveNodeByKey (ts : TState) (key newParentKey newIndex : Nat)
    (o : Opts) : TState :=
  let ops := ts.ops ++ [.moveNode key newParentKey newIndex (o.normalize.getD true)]
  match ts.document.takeOut key with
  | some r =>
    match Node.insertChild r.1 newParentKey newIndex r.2 with
    | some d => { ts with document := d, ops := ops }
    | none => { ts with ops := ops }
  | none => { ts with ops := ops }

/-- `normalizeNodeByKey(key, SCHEMA)`: the schema-repair engine is outside
this layer (spec section 1); its invocation is recorded in the trace. -/
def normalizeNodeByKey (ts : TState) (key : Nat) : TState :=
  { ts with ops := ts.ops ++ [.normalizeNode key] }

/-- `normalizeDocument(SCHEMA)`: recorded invocation of the whole-document
schema-repair pass. -/
def normalizeDocument (ts : TState) : TState :=
  { ts with ops := ts.ops ++ [.normalizeDoc] }

/-! ## The at-range transform layer (translated from
`src/src/transforms/at-range.js`).  The `Normalize.block` / `Normalize.inline`
/ `Normalize.mark` coercions of the source turn loose values into canonical
objects (spec section 6); the embedding passes canonical values directly, so
they are identities, except that `Normalize.block` keeps the explicit
child-clearing `merge` of `wrapBlockAtRange`. -/

/-- `addMarkAtRange` (at-range.js 28-48): one `addMarkByKey` per text leaf
spanned by the range, with the leaf-local interval. -/
def addMarkAtRange (ts : TState) (range : Range) (mark : Mark)
    (options : Opts) : TState :=
  if range.isCollapsed then ts
  else
    let normalize := options.normalize.getD true
    let startKey := range.startKey
    let startOffset := range.startOffset
    let endKey := range.endKey
    let endOffset := range.endOffset
    let texts := textsAtRange ts.document startKey endKey
    texts.foldl
      (fun acc t =>
        let index := if t.key == startKey then startOffset else 0
        let length :=
          if t.key == startKey && t.key == endKey then endOffset - startOffset
          else if t.key == endKey then endOffset
          else t.content.length
        addMarkByKey acc t.key index length mark ⟨some normalize⟩)
      ts

/-- `removeMarkAtRange` (at-range.js 620-640): symmetric to
`addMarkAtRange`, invoking `removeMarkByKey`. -/
def removeMarkAtRange (ts : TState) (range : Range) (mark : Mark)
    (options : Opts) : TState :=
  if range.isCollapsed then ts
  else
    let normalize := options.normalize.getD true
    let startKey := range.startKey
    let startOffset := range.startOffset
    let endKey := range.endKey
    let endOffset := range.endOffset
    let texts := textsAtRange ts.document startKey endKey
    texts.foldl
      (fun acc t =>
        let index := if t.key == startKey then startOffset else 0
        let length :=
          if t.key == startKey && t.key == endKey then endOffset - startOffset
          else if t.key == endKey then endOffset
          else t.content.length
        removeMarkByKey acc t.key index length mark ⟨some normalize⟩)
      ts

/-- `toggleMarkAtRange` (at-range.js 767-783): remove the mark when it already
occurs among the marks at the range, add it otherwise. -/
def toggleMarkAtRange (ts : TState) (range : Range) (mark : Mark)
    (options : Opts) : TState :=
  if range.isCollapsed then ts
  else
    let normalize := options.normalize.getD true
    let marks := marksAtRange ts.document range.startKey range.endKey
    let present := marks.any (fun m => m == mark)
    if present then removeMarkAtRange ts range mark ⟨some normalize⟩
    else addMarkAtRange ts range mark ⟨some normalize⟩

/-- `deleteAtRange` (at-range.js 59-121). -/
def deleteAtRange (ts : TState) (range : Range) (options : Opts) : TState :=
  if range.isCollapsed then ts
  else
    let normalize := options.normalize.getD true
    let startKey := range.startKey
    let startOffset := range.startOffset
    let endKey := range.endKey
    let endOffset := range.endOffset
    -- If the start and end key are the same, we can just remove text.
    if startKey == endKey then
      removeTextByKey ts startKey startOffset (endOffset - startOffset)
        ⟨some normalize⟩
    else
      -- Split at the range edges within a common ancestor, without normalizing.
      match commonAncestor ts.document startKey endKey with
      | none => ts
      | some ancestor0 =>
      match ancestor0.highestChild startKey, ancestor0.highestChild endKey with
      | some startChild0, some endChild0 =>
        let startOff :=
          (if startChild0.isText then 0 else startChild0.getOffset startKey)
            + startOffset
        let endOff :=
          (if endChild0.isText then 0 else endChild0.getOffset endKey)
            + endOffset
        let ts := splitNodeByKey ts startChild0.key startOff OPTS
        let ts := splitNodeByKey ts endChild0.key endOff OPTS
        -- Refresh variables.
        let doc := ts.document
        match commonAncestor doc startKey endKey with
        | none => ts
        | some ancestor =>
        match ancestor.highestChild startKey, ancestor.highestChild endKey with
        | some startChild, some endChild =>
          let startIndex := ancestor.childNodes.findIdx
            (fun c => c.key == startChild.key)
          let endIndex := ancestor.childNodes.findIdx
            (fun c => c.key == endChild.key)
          let middles := (ancestor.childNodes.drop (startIndex + 1)).take
            (endIndex - startIndex)
          -- Remove all of the middle nodes, between the splits.
          let ts := middles.foldl (fun acc c => removeNodeByKey acc c.key OPTS) ts
          -- If the start and end block are different, move all of the nodes
          -- from the end block into the start block.
          match closestBlock doc startKey,
                (nextText doc endKey).bind (fun t => closestBlock doc t.key) with
          | some startBlock, some endBlock =>
            let ts :=
              if startBlock.key != endBlock.key then
                let ts := endBlock.childNodes.enum.foldl
                  (fun acc ic =>
                    moveNodeByKey acc ic.2.key startBlock.key
                      (startBlock.childNodes.length + ic.1) OPTS)
                  ts
                let lonely := (getFurthest doc endBlock.key
                  (fun p => p.childNodes.length == 1)).getD endBlock
                removeNodeByKey ts lonely.key OPTS
              else ts
            if normalize then normalizeNodeByKey ts ancestor.key else ts
          | _, _ => ts
        | _, _ => ts
      | _, _ => ts

/-- `insertBlockAtRange` (at-range.js 385-428). -/
def insertBlockAtRange (ts : TState) (range : Range) (block : Node)
    (options : Opts) : TState :=
  let normalize := options.normalize.getD true
  let ts := if range.isExpanded then deleteAtRange ts range noOpts else ts
  let range := if range.isExpanded then range.collapseToStart else range
  let startKey := range.startKey
  let startOffset := range.startOffset
  let document := ts.document
  match descendantAt document startKey with
  | none => ts
  | some startText =>
  match closestBlock document startKey with
  | none => ts
  | some startBlock =>
  match parentOf document startBlock.key with
  | none => ts
  | some parent =>
  let index := parent.childNodes.findIdx (fun c => c.key == startBlock.key)
  let ts :=
    if startBlock.isVoid then
      insertNodeByKey ts parent.key (index + 1) block ⟨some normalize⟩
    else if startBlock.isEmpty then
      insertNodeByKey (removeNodeByKey ts startBlock.key noOpts)
        parent.key index block ⟨some normalize⟩
    else if range.isAtStartOfN startBlock then
      insertNodeByKey ts parent.key index block ⟨some normalize⟩
    else if range.isAtEndOfN startBlock then
      insertNodeByKey ts parent.key (index + 1) block ⟨some normalize⟩
    else
      let offset := startBlock.getOffset startText.key + startOffset
      insertNodeByKey (splitNodeByKey ts startBlock.key offset ⟨some normalize⟩)
        parent.key (index + 1) block ⟨some normalize⟩
  if normalize then normalizeNodeByKey ts parent.key else ts

/-- The tail of the `insertFragmentAtRange` body from the optional boundary
split on (at-range.js 505-539): the split at the start child when the start
offset is nonzero, the refreshed lookups, the move of the start block's
post-split children into the fragment's last block, and the final splice of
the fragment's first block (or its children) into the start block. -/
def insertFragmentTail (ts : TState) (startKey startOffset : Nat)
    (isAtStart : Bool) (firstBlock lastBlock parent startChild0 : Node)
    (index offset : Nat) (normalize : Bool) : TState :=
  -- Check if we need to split the node.
  let ts :=
    if startOffset != 0 then splitNodeByKey ts startChild0.key offset OPTS
    else ts
  -- Update our variables with the new state.
  let document := ts.document
  match descendantAt document startKey with
  | none => ts
  | some startText =>
  match closestBlock document startKey with
  | none => ts
  | some startBlock =>
  match startBlock.highestChild startText.key with
  | none => ts
  | some startChild =>
  -- If the first and last block aren't the same, move the starting
  -- block's children after the split into the fragment's last block.
  let ts :=
    if firstBlock.key != lastBlock.key then
      let nextChild :=
        if isAtStart then some startChild
        else startBlock.nextSiblingIn startChild.key
      let nextNodes : List Node :=
        match nextChild with
        | some nc => startBlock.childNodes.dropWhile (fun n => n.key != nc.key)
        | none => []
      let lastIndex := lastBlock.childNodes.length
      nextNodes.enum.foldl
        (fun acc (ic : Nat × Node) =>
          moveNodeByKey acc ic.2.key lastBlock.key (lastIndex + ic.1) OPTS)
        ts
    else ts
  -- If the starting block is empty, replace it by the first block of the
  -- fragment; otherwise splice the first block's children into it.
  let ts :=
    if startBlock.isEmpty then
      insertNodeByKey (removeNodeByKey ts startBlock.key OPTS)
        parent.key index firstBlock OPTS
    else
      -- the same `getHighestChild` lookup as `startChild` above
      let inlineChild := (startBlock.highestChild startText.key).getD startChild
      let inlineIndex := startBlock.childNodes.findIdx
        (fun c => c.key == inlineChild.key)
      firstBlock.childNodes.enum.foldl
        (fun acc ic =>
          let o := if startOffset == 0 then 0 else 1
          insertNodeByKey acc startBlock.key (inlineIndex + ic.1 + o) ic.2 OPTS)
        ts
  -- Normalize if requested.
  if normalize then normalizeNodeByKey ts parent.key else ts

/-- The body of `insertFragmentAtRange` after its early-return guards
(at-range.js 452-540), over the state left by the expanded-range deletion. -/
def insertFragmentFinish (ts : TState) (range : Range) (fragment0 : Node)
    (normalize : Bool) : TState :=
  -- Regenerate the keys for all of the fragment's nodes.
  let regen := fragment0.regenDescendants ts.nextKey
  let fragment := regen.1
  let ts : TState := { ts with nextKey := regen.2 }
  let startKey := range.startKey
  let startOffset := range.startOffset
  let document := ts.document
  match descendantAt document startKey with
  | none => ts
  | some startText =>
  match closestBlock document startText.key with
  | none => ts
  | some startBlock =>
  match startBlock.highestChild startText.key with
  | none => ts
  | some startChild =>
  let isAtStart := range.isAtStartOfN startBlock
  match parentOf document startBlock.key with
  | none => ts
  | some parent =>
  let index := parent.childNodes.findIdx (fun c => c.key == startBlock.key)
  let offset :=
    if startChild.key == startText.key then startOffset
    else startChild.getOffset startText.key + startOffset
  let blocks := blocksOf fragment
  match blocks.head?, blocks.getLast? with
  | some firstBlock, some lastBlock =>
    -- If the first and last block aren't the same, insert all of the nodes
    -- after the fragment's first block at the index.
    let ts :=
      if firstBlock.key != lastBlock.key then
        let lonelyParent := getFurthest fragment firstBlock.key
          (fun p => p.childNodes.length == 1)
        let lonelyChild := lonelyParent.getD firstBlock
        let startIndex := parent.childNodes.findIdx
          (fun c => c.key == startBlock.key)
        let fragment2 :=
          match fragment.takeOut lonelyChild.key with
          | some r => r.1
          | none => fragment
        fragment2.childNodes.enum.foldl
          (fun acc ic =>
            insertNodeByKey acc parent.key (startIndex + ic.1 + 1) ic.2 OPTS)
          ts
      else ts
    insertFragmentTail ts startKey startOffset isAtStart firstBlock lastBlock
      parent startChild index offset normalize
  | _, _ => ts

/-- `insertFragmentAtRange` (at-range.js 440-540): delete an expanded range
first, return early on an empty fragment, then run the insertion body. -/
def insertFragmentAtRange (ts : TState) (range : Range) (fragment : Node)
    (options : Opts) : TState :=
  let normalize := options.normalize.getD true
  -- If the range is expanded, delete it first.
  let ts1 := if range.isExpanded then deleteAtRange ts range OPTS else ts
  let range1 := if range.isExpanded then range.collapseToStart else range
  -- If the fragment is empty, there's nothing to do after deleting.
  if fragment.length == 0 then ts1
  else insertFragmentFinish ts1 range1 fragment normalize

/-- `insertTextAtRange` (at-range.js 589-608).  The source's PERF branch reads
`if (normalize !== undefined) normalize = range.isExpanded`, overwriting a
caller-specified flag and leaving an absent flag absent. -/
def insertTextAtRange (ts : TState) (range : Range) (text : Str)
    (marks : List Mark) (options : Opts) : TState :=
  let normalize0 := options.normalize
  let startKey := range.startKey
  let startOffset := range.startOffset
  match parentOf ts.document startKey with
  | none => ts
  | some parent =>
    if parent.isVoid then ts
    else
      let ts := if range.isExpanded then deleteAtRange ts range OPTS else ts
      -- PERF: Unless specified, don't normalize if only inserting text.
      let normalize :=
        if normalize0.isSome then some range.isExpanded else normalize0
      insertTextByKey ts startKey startOffset text marks ⟨normalize⟩

/-- The shared tail of `wrapBlockAtRange` (at-range.js 1037-1047): inject the
wrapper at `index` and move the siblings into it in order. -/
def wrapBlockFinish (ts : TState) (parent : Node) (block : Node)
    (siblings : List Node) (index : Nat) (normalize : Bool) : TState :=
  let ts := insertNodeByKey ts parent.key index block OPTS
  let ts := siblings.enum.foldl
    (fun acc ic => moveNodeByKey acc ic.2.key block.key ic.1 OPTS) ts
  if normalize then normalizeNodeByKey ts parent.key else ts

/-- `wrapBlockAtRange` (at-range.js 991-1048). -/
def wrapBlockAtRange (ts : TState) (range : Range) (block0 : Node)
    (options : Opts) : TState :=
  -- block = Normalize.block(block); block = block.merge({ nodes: clear })
  let block := clearChildren block0
  let normalize := options.normalize.getD true
  let document := ts.document
  let blocks := blocksAtRange document range.startKey range.endKey
  match blocks.head?, blocks.getLast? with
  | some firstblock, some lastblock =>
    -- if there is only one block in the selection then we know the parent
    -- and siblings
    if blocks.length == 1 then
      match parentOf document firstblock.key with
      | none => ts
      | some parent =>
        let siblings := blocks
        let index := parent.childNodes.findIdx (fun c => c.key == firstblock.key)
        wrapBlockFinish ts parent block siblings index normalize
    else
      -- determine closest shared parent to all blocks in selection,
      -- falling back to the document
      let parent := (getClosest document firstblock.key (fun p1 =>
        (getClosest document lastblock.key (fun p2 => p1.key == p2.key)).isSome)).getD
        document
      -- direct children of the parent that fall in the selection
      match
        lastIdxWhere (fun node =>
          node.key == firstblock.key || node.hasDescendant firstblock.key)
          parent.childNodes,
        lastIdxWhere (fun node =>
          node.key == lastblock.key || node.hasDescendant lastblock.key)
          parent.childNodes with
      | some i0, some i1 =>
        let index := i0
        let siblings := (parent.childNodes.drop i0).take (i1 + 1 - i0)
        wrapBlockFinish ts parent block siblings index normalize
      | _, _ => ts
  | _, _ => ts

/-- `wrapTextAtRange` (at-range.js 1191-1203), with the suffix argument given
explicitly. -/
def wrapTextAtRange (ts : TState) (range : Range) (pre : Str) (suf : Str)
    (options : Opts) : TState :=
  let normalize := options.normalize.getD true
  let startKey := range.startKey
  let endKey := range.endKey
  let start := range.collapseToStart
  let end0 := range.collapseToEnd
  let end1 := if startKey == endKey then end0.moveForward pre.length else end0
  let ts := insertTextAtRange ts start pre [] ⟨some normalize⟩
  insertTextAtRange ts end1 suf [] ⟨some normalize⟩

/-- Calling `wrapTextAtRange` without the optional suffix argument: the source
signature declares `suffix = prefix`, so the prefix is used for both. -/
def wrapTextAtRangeNoSuffix (ts : TState) (range : Range) (pre : Str)
    (options : Opts) : TState :=
  wrapTextAtRange ts range pre pre options

/-! ## Stated properties. -/

/-- The batching discipline of spec section 5 for a recorded trace: every step
but the last was issued with the do-not-normalize flag, so the schema-repair
pass runs at most once, at the end. -/
def batched (ops : List Op) : Prop :=
  ∀ op ∈ ops.dropLast, op.normalizes = false

/-- Key sanity of a transform state with a reserve `R` of keys promised to
stay distinct from the document's: all keys (document and reserve together,
counted with multiplicity) are pairwise distinct and below the mint
counter. -/
def InvRes (ts : TState) (R : Multiset Nat) : Prop :=
  ((ts.document.keys : Multiset Nat) + R).Nodup ∧
    ∀ k ∈ (ts.document.keys : Multiset Nat) + R, k < ts.nextKey

/-- Global key uniqueness of a transform state: every node key in the
document is distinct, and the mint counter is ahead of all of them. -/
def Inv (ts : TState) : Prop := InvRes ts 0

/-- A key-accounting step: the primitives leading from `ts` to `ts'` advance
the counter, and the new document's keys are covered — with multiplicity —
by the old document's keys, an explicit budget `consumed` of externally
supplied keys, and distinct fresh keys minted from the traversed counter
interval. -/
def KeyStep (ts ts' : TState) (consumed : Multiset Nat) : Prop :=
  ts.nextKey ≤ ts'.nextKey ∧
  ∃ fresh : Multiset Nat,
    (ts'.document.keys : Multiset Nat) ≤
        (ts.document.keys : Multiset Nat) + consumed + fresh ∧
    fresh.Nodup ∧ ∀ x ∈ fresh, ts.nextKey ≤ x ∧ x < ts'.nextKey

/-- `Subtree s t`: the node `s` occurs as a subtree of `t`. -/
inductive Subtree : Node → Node → Prop
  | refl (n : Node) : Subtree n n
  | child {s c t : Node} (hc : c ∈ t.childNodes) (hs : Subtree s c) : Subtree s t

/-- `SubtreeL s ns`: the node `s` occurs as a subtree of one of the forest's
trees. -/
def SubtreeL (s : Node) (ns : List Node) : Prop :=
  ∃ c ∈ ns, Subtree s c

/-! ## Concrete fixtures used by example clauses, counterexamples and
witnesses. -/

/-- A bold mark. -/
def bMark : Mark := ⟨"bold", []⟩

/-- Paragraph block holding the text leaf `"abc"`. -/
def paraA : Node := .elem .block 1 "paragraph" false [] [.text 2 "abc".toList []]

/-- Paragraph block holding the text leaf `"def"`. -/
def paraB : Node := .elem .block 3 "paragraph" false [] [.text 4 "def".toList []]

/-- A document with the two sibling paragraphs `"abc"` and `"def"`. -/
def docAB : Node := .elem .document 0 "document" false [] [paraA, paraB]

/-- Transform state over `docAB` with the key mint ahead of its keys. -/
def tsAB : TState := ⟨docAB, 5, []⟩

/-- The range from the end of `"abc"` to the start of `"def"`. -/
def rAB : Range := ⟨2, 3, 4, 0, false⟩

/-- The range spanning both leaves of `docAB` entirely. -/
def rABfull : Range := ⟨2, 0, 4, 3, false⟩

/-- A collapsed caret inside `"abc"`. -/
def rCaret : Range := ⟨2, 1, 2, 1, false⟩

/-- A fragment derived from `docAB` itself: it reuses the keys of `paraA`. -/
def fragAB : Node := .elem .document 0 "document" false [] [paraA, paraB]

/-- A one-paragraph document family over an arbitrary leaf text and marks:
document (key 0) › paragraph (key 1) › text leaf (key 2). -/
def mkDoc (t : Str) (ml : List Mark) : Node :=
  .elem .document 0 "document" false []
    [.elem .block 1 "paragraph" false [] [.text 2 t ml]]

/-- A fresh quote block used as an insertion payload. -/
def newBlock : Node := .elem .block 90 "quote" false [] [.text 91 [] []]

/-- `SilentExt a b`: state `b` extends the trace of state `a` by operations
that all carry the do-not-normalize flag. -/
def SilentExt (a b : TState) : Prop :=
  ∃ new, b.ops = a.ops ++ new ∧ ∀ op ∈ new, op.normalizes = false

/-- `BatchedExt a b`: state `b` extends the trace of state `a` by silent
operations followed by at most one final operation (which may normalize). -/
def BatchedExt (a b : TState) : Prop :=
  SilentExt a b ∨ ∃ c op, SilentExt a c ∧ b.ops = c.ops ++ [op]

/-! # Theorems

## Trace shape of the primitives -/

theorem addMarkByKey_ops (ts : TState) (k i l : Nat) (m : Mark) (o : Opts) :
    (addMarkByKey ts k i l m o).ops =
      ts.ops ++ [.addMark k i l m (o.normalize.getD true)] := rfl

theorem removeMarkByKey_ops (ts : TState) (k i l : Nat) (m : Mark) (o : Opts) :
    (removeMarkByKey ts k i l m o).ops =
      ts.ops ++ [.removeMark k i l m (o.normalize.getD true)] := rfl

theorem removeTextByKey_ops (ts : TState) (k i l : Nat) (o : Opts) :
    (removeTextByKey ts k i l o).ops =
      ts.ops ++ [.removeText k i l (o.normalize.getD true)] := rfl

theorem insertTextByKey_ops (ts : TState) (k i : Nat) (s : Str)
    (m : List Mark) (o : Opts) :
    (insertTextByKey ts k i s m o).ops =
      ts.ops ++ [.insertText k i s m (o.normalize.getD true)] := rfl

theorem splitNodeByKey_ops (ts : TState) (k off : Nat) (o : Opts) :
    (splitNodeByKey ts k off o).ops =
      ts.ops ++ [.splitNode k off (o.normalize.getD true)] := by
  unfold splitNodeByKey
  cases Node.splitAtKey ts.document k off ts.nextKey <;> rfl

theorem removeNodeByKey_ops (ts : TState) (k : Nat) (o : Opts) :
    (removeNodeByKey ts k o).ops =
      ts.ops ++ [.removeNode k (o.normalize.getD true)] := by
  unfold removeNodeByKey
  cases ts.document.takeOut k <;> rfl

theorem insertNodeByKey_ops (ts : TState) (pk i : Nat) (n : Node) (o : Opts) :
    (insertNodeByKey ts pk i n o).ops =
      ts.ops ++ [.insertNode pk i n (o.normalize.getD true)] := by
  unfold insertNodeByKey
  cases Node.insertChild ts.document pk i n <;> rfl

theorem moveNodeByKey_ops (ts : TState) (k p i : Nat) (o : Opts) :
    (moveNodeByKey ts k p i o).ops =
      ts.ops ++ [.moveNode k p i (o.normalize.getD true)] := by
  unfold moveNodeByKey
  split
  all_goals first
  | rfl
  | (split <;> rfl)

theorem normalizeNodeByKey_ops (ts : TState) (k : Nat) :
    (normalizeNodeByKey ts k).ops = ts.ops ++ [.normalizeNode k] := rfl

theorem normalizeDocument_ops (ts : TState) :
    (normalizeDocument ts).ops = ts.ops ++ [.normalizeDoc] := rfl

/-- Trace of a fold whose every step appends exactly one operation. -/
theorem foldl_ops_eq {α : Type} (f : TState → α → TState) (g : α → Op)
    (hf : ∀ ts x, (f ts x).ops = ts.ops ++ [g x]) :
    ∀ (l : List α) (ts : TState), (l.foldl f ts).ops = ts.ops ++ l.map g := by
  intro l
  induction l with
  | nil => intro ts; simp
  | cons x xs ih => intro ts; simp [ih, hf]

/-- Any mark occurs among the marks at a range exactly when some spanned leaf
carries it. -/
theorem marksAtRange_any_iff (root : Node) (sk ek : Nat) (mark : Mark) :
    ((marksAtRange root sk ek).any (fun m => m == mark) = true) ↔
      ∃ t ∈ textsAtRange root sk ek, mark ∈ t.marks := by
  simp only [marksAtRange, List.any_eq_true, List.mem_flatMap, beq_iff_eq]
  constructor
  · rintro ⟨m, ⟨t, ht, hm⟩, rfl⟩
    exact ⟨t, ht, hm⟩
  · rintro ⟨t, ht, hm⟩
    exact ⟨mark, ⟨t, ht, hm⟩, rfl⟩

/-! ## C9: collapsed-range guards -/

/-- C9: on a collapsed range, `addMarkAtRange`, `removeMarkAtRange`,
`toggleMarkAtRange` and `deleteAtRange` return immediately with the
transform's state unchanged: no primitive operation is applied and the
document is the same value as before. -/
theorem collapsed_range_is_noop (ts : TState) (range : Range) (mark : Mark)
    (options : Opts) (h : range.isCollapsed = true) :
    addMarkAtRange ts range mark options = ts ∧
    removeMarkAtRange ts range mark options = ts ∧
    toggleMarkAtRange ts range mark options = ts ∧
    deleteAtRange ts range options = ts := by
  unfold addMarkAtRange removeMarkAtRange toggleMarkAtRange deleteAtRange
  simp [h]

/-- Witness for C9 at the collapsed caret of `docAB`. -/
theorem collapsed_range_is_noop_witness :
    rCaret.isCollapsed = true ∧ deleteAtRange tsAB rCaret noOpts = tsAB :=
  ⟨rfl, (collapsed_range_is_noop tsAB rCaret bMark noOpts rfl).2.2.2⟩

/-! ## C6: one mark primitive per spanned leaf -/

/-- C6: on an expanded range, `addMarkAtRange` and `removeMarkAtRange` invoke
the corresponding mark primitive exactly once per text leaf spanned, with the
leaf-local interval: index `startOffset` for the start leaf and 0 otherwise;
length `endOffset - startOffset` when start and end share the leaf,
`endOffset` for the end leaf, and the full leaf length otherwise. -/
theorem mark_primitive_per_leaf (ts : TState) (range : Range) (mark : Mark)
    (options : Opts) (h : range.isExpanded = true) :
    (addMarkAtRange ts range mark options).ops = ts.ops ++
      (textsAtRange ts.document range.startKey range.endKey).map (fun t =>
        .addMark t.key
          (if t.key == range.startKey then range.startOffset else 0)
          (if t.key == range.startKey && t.key == range.endKey then
            range.endOffset - range.startOffset
           else if t.key == range.endKey then range.endOffset
           else t.content.length)
          mark (options.normalize.getD true)) ∧
    (removeMarkAtRange ts range mark options).ops = ts.ops ++
      (textsAtRange ts.document range.startKey range.endKey).map (fun t =>
        .removeMark t.key
          (if t.key == range.startKey then range.startOffset else 0)
          (if t.key == range.startKey && t.key == range.endKey then
            range.endOffset - range.startOffset
           else if t.key == range.endKey then range.endOffset
           else t.content.length)
          mark (options.normalize.getD true)) := by
  have hc : range.isCollapsed = false := by
    simpa [Range.isExpanded] using h
  constructor
  · unfold addMarkAtRange
    simp only [hc, Bool.false_eq_true, if_false]
    exact foldl_ops_eq _ _ (fun (ts : TState) (t : TextLeaf) => rfl) _ ts
  · unfold removeMarkAtRange
    simp only [hc, Bool.false_eq_true, if_false]
    exact foldl_ops_eq _ _ (fun (ts : TState) (t : TextLeaf) => rfl) _ ts

/-- Witness for C6 over the fully spanned `docAB`. -/
theorem mark_primitive_per_leaf_witness :
    rABfull.isExpanded = true ∧
    (addMarkAtRange tsAB rABfull bMark noOpts).ops =
      [.addMark 2 0 3 bMark true, .addMark 4 0 3 bMark true] := by
  refine ⟨rfl, ?_⟩
  rw [(mark_primitive_per_leaf tsAB rABfull bMark noOpts rfl).1]
  rfl

/-! ## C3: toggle chooses removal when any leaf carries the mark -/

/-- C3: on an expanded range, `toggleMarkAtRange` applies removal over the
whole range when at least one spanned text leaf carries a mark structurally
equal to the given one, and applies addition otherwise. -/
theorem toggleMark_any_leaf_selects_removal (ts : TState) (range : Range)
    (mark : Mark) (options : Opts) (h : range.isExpanded = true) :
    toggleMarkAtRange ts range mark options =
      if ∃ t ∈ textsAtRange ts.document range.startKey range.endKey,
          mark ∈ t.marks then
        removeMarkAtRange ts range mark ⟨some (options.normalize.getD true)⟩
      else
        addMarkAtRange ts range mark ⟨some (options.normalize.getD true)⟩ := by
  have hc : range.isCollapsed = false := by
    simpa [Range.isExpanded] using h
  unfold toggleMarkAtRange
  simp only [hc, Bool.false_eq_true, if_false]
  by_cases hp : ∃ t ∈ textsAtRange ts.document range.startKey range.endKey,
      mark ∈ t.marks
  · rw [if_pos hp, if_pos ((marksAtRange_any_iff _ _ _ _).2 hp)]
  · rw [if_neg hp]
    rw [if_neg (fun hcontra => hp ((marksAtRange_any_iff _ _ _ _).1 hcontra))]

/-- Witness for C3: leaf `"abc"` does not carry the bold mark, so toggling
adds it. -/
theorem toggleMark_any_leaf_selects_removal_witness :
    rABfull.isExpanded = true ∧
    toggleMarkAtRange tsAB rABfull bMark noOpts =
      addMarkAtRange tsAB rABfull bMark ⟨some true⟩ := by
  refine ⟨rfl, ?_⟩
  rw [toggleMark_any_leaf_selects_removal tsAB rABfull bMark noOpts rfl]
  rw [if_neg (by decide)]
  rfl

/-! ## C4: the inverted normalize guard of `insertTextAtRange` -/

/-- C4 (divergence exhibit): inserting text at a collapsed caret with NO
normalize option issues `insertTextByKey` with the flag still absent, so the
primitive falls back to its default and the schema-repair pass runs — the
source's PERF guard reads `normalize !== undefined` and therefore inverts its
own comment ("Unless specified, don't normalize if only inserting text").
Conversely a caller-specified flag is overwritten by `range.isExpanded`. -/
theorem insertText_unspecified_flag_normalizes :
    (insertTextAtRange tsAB rCaret ['x'] [] noOpts).ops =
      [.insertText 2 1 ['x'] [] true] ∧
    (insertTextAtRange tsAB rCaret ['x'] [] ⟨some true⟩).ops =
      [.insertText 2 1 ['x'] [] false] := by
  exact ⟨rfl, rfl⟩

/-! ## C8 counterexample: a composite with normalizing intermediate steps -/

/-- C8 counterexample: `addMarkAtRange` across the two leaves of `docAB` with
default options is a two-step composite operation; its first (intermediate)
primitive carries the normalize flag, and the schema-repair pass is invoked
twice rather than at most once at the end. -/
theorem addMark_intermediate_steps_normalize :
    (addMarkAtRange tsAB rABfull bMark noOpts).ops =
      [.addMark 2 0 3 bMark true, .addMark 4 0 3 bMark true] ∧
    ¬ batched (addMarkAtRange tsAB rABfull bMark noOpts).ops ∧
    ((addMarkAtRange tsAB rABfull bMark noOpts).ops.filter
      (fun op => op.normalizes)).length = 2 := by
  refine ⟨rfl, ?_, rfl⟩
  intro hbat
  have hmem : (Op.addMark 2 0 3 bMark true) ∈
      (addMarkAtRange tsAB rABfull bMark noOpts).ops.dropLast := by
    show Op.addMark 2 0 3 bMark true ∈ [Op.addMark 2 0 3 bMark true]
    exact List.mem_singleton.2 rfl
  have := hbat _ hmem
  simp [Op.normalizes] at this

/-! ## C8 amended: the OPTS-based composites do batch normalization -/

theorem silentExt_refl (a : TState) : SilentExt a a :=
  ⟨[], by simp, by simp⟩

theorem silentExt_trans {a b c : TState} (h1 : SilentExt a b)
    (h2 : SilentExt b c) : SilentExt a c := by
  rcases h1 with ⟨n1, e1, s1⟩
  rcases h2 with ⟨n2, e2, s2⟩
  refine ⟨n1 ++ n2, by simp [e2, e1], ?_⟩
  intro op hop
  rcases List.mem_append.1 hop with h | h
  · exact s1 _ h
  · exact s2 _ h

/-- A single primitive invoked with `{ normalize: false }` is a silent
extension. -/
theorem silentExt_single {a b : TState} (op : Op)
    (hb : b.ops = a.ops ++ [op]) (hs : op.normalizes = false) :
    SilentExt a b :=
  ⟨[op], hb, by simpa using hs⟩

theorem silentExt_foldl {α : Type} (f : TState → α → TState)
    (hf : ∀ ts x, SilentExt ts (f ts x)) (l : List α) (ts : TState) :
    SilentExt ts (l.foldl f ts) := by
  induction l generalizing ts with
  | nil => exact silentExt_refl ts
  | cons x xs ih => exact silentExt_trans (hf ts x) (ih (f ts x))

theorem batchedExt_of_silent {a b : TState} (h : SilentExt a b) :
    BatchedExt a b := Or.inl h

theorem batchedExt_final {a c b : TState} (op : Op) (h : SilentExt a c)
    (hb : b.ops = c.ops ++ [op]) : BatchedExt a b := Or.inr ⟨c, op, h, hb⟩

/-- From an empty starting trace, a batched extension yields the batching
discipline on the recorded trace. -/
theorem batched_of_batchedExt {d : Node} {k : Nat} {b : TState}
    (h : BatchedExt ⟨d, k, []⟩ b) : batched b.ops := by
  rcases h with ⟨new, hops, hs⟩ | ⟨c, op, ⟨new, hops, hs⟩, hb⟩
  · intro op hop
    rw [hops] at hop
    exact hs _ ((List.dropLast_sublist _).subset (by simpa using hop))
  · intro o ho
    rw [hb, hops] at ho
    simp only [List.nil_append, List.dropLast_concat] at ho
    exact hs _ ho

/-- The final normalize-or-not step keeps an extension batched. -/
theorem batchedExt_tail {ts b : TState} (h : SilentExt ts b) (nz : Bool)
    (k : Nat) :
    BatchedExt ts (if nz = true then normalizeNodeByKey b k else b) := by
  cases nz with
  | false => simpa using batchedExt_of_silent h
  | true => simpa using batchedExt_final _ h (normalizeNodeByKey_ops b k)

/-- Appending one `{ normalize: false }` split keeps an extension silent. -/
theorem SilentExt.splitK {ts b : TState} (h : SilentExt ts b) (k o : Nat) :
    SilentExt ts (splitNodeByKey b k o OPTS) :=
  silentExt_trans h (silentExt_single _ (splitNodeByKey_ops b k o OPTS) rfl)

/-- Appending one `{ normalize: false }` node removal keeps an extension
silent. -/
theorem SilentExt.removeK {ts b : TState} (h : SilentExt ts b) (k : Nat) :
    SilentExt ts (removeNodeByKey b k OPTS) :=
  silentExt_trans h (silentExt_single _ (removeNodeByKey_ops b k OPTS) rfl)

/-- Appending one `{ normalize: false }` node insertion keeps an extension
silent. -/
theorem SilentExt.insertK {ts b : TState} (h : SilentExt ts b) (pk i : Nat)
    (n : Node) : SilentExt ts (insertNodeByKey b pk i n OPTS) :=
  silentExt_trans h (silentExt_single _ (insertNodeByKey_ops b pk i n OPTS) rfl)

/-- Appending a fold of `{ normalize: false }` node insertions keeps an
extension silent. -/
theorem SilentExt.insertFold {ts b : TState} (h : SilentExt ts b) (pk : Nat)
    (g : Nat × Node → Nat) (l : List (Nat × Node)) :
    SilentExt ts (l.foldl
      (fun acc ic => insertNodeByKey acc pk (g ic) ic.2 OPTS) b) :=
  silentExt_trans h (silentExt_foldl _
    (fun a ic => silentExt_single _ (insertNodeByKey_ops a pk (g ic) ic.2 OPTS) rfl) l b)

/-- Appending a fold of `{ normalize: false }` node moves keeps an extension
silent. -/
theorem SilentExt.moveFold {ts b : TState} (h : SilentExt ts b) (pk : Nat)
    (g : Nat × Node → Nat) (l : List (Nat × Node)) :
    SilentExt ts (l.foldl
      (fun acc ic => moveNodeByKey acc ic.2.key pk (g ic) OPTS) b) :=
  silentExt_trans h (silentExt_foldl _
    (fun a ic => silentExt_single _ (moveNodeByKey_ops a ic.2.key pk (g ic) OPTS) rfl) l b)

/-- A state-level `if` whose both branches are silent extensions is one. -/
theorem SilentExt.iteState {ts : TState} (c : Prop) [Decidable c]
    {b1 b2 : TState} (h1 : SilentExt ts b1) (h2 : SilentExt ts b2) :
    SilentExt ts (if c then b1 else b2) := by
  split <;> assumption

/-- The trace discipline of `deleteAtRange`: with `{ normalize: false }` the
whole extension is silent; in general all steps but the last are silent. -/
theorem deleteAtRange_trace (ts : TState) (range : Range) (options : Opts) :
    (options.normalize = some false →
      SilentExt ts (deleteAtRange ts range options)) ∧
    BatchedExt ts (deleteAtRange ts range options) := by
  have hmid : ∀ (l : List Node) (a : TState), SilentExt a
      (l.foldl (fun acc c => removeNodeByKey acc c.key OPTS) a) :=
    fun l a => silentExt_foldl _
      (fun a c => silentExt_single _ (removeNodeByKey_ops a c.key OPTS) rfl) l a
  have hone : ∀ (a : TState) (k o : Nat), SilentExt a (splitNodeByKey a k o OPTS) :=
    fun a k o => silentExt_single _ (splitNodeByKey_ops a k o OPTS) rfl
  unfold deleteAtRange
  by_cases hcol : range.isCollapsed = true
  · rw [if_pos hcol]
    exact ⟨fun _ => silentExt_refl ts, batchedExt_of_silent (silentExt_refl ts)⟩
  rw [if_neg hcol]
  by_cases hk : (range.startKey == range.endKey) = true
  · rw [if_pos hk]
    constructor
    · intro hno
      exact silentExt_single _ (removeTextByKey_ops ts _ _ _ _)
        (by simp [hno, Op.normalizes])
    · exact batchedExt_final _ (silentExt_refl ts) (removeTextByKey_ops ts _ _ _ _)
  rw [if_neg hk]
  dsimp only
  split
  all_goals
    try exact ⟨fun _ => silentExt_refl ts, batchedExt_of_silent (silentExt_refl ts)⟩
  split
  all_goals
    try exact ⟨fun _ => silentExt_refl ts, batchedExt_of_silent (silentExt_refl ts)⟩
  rename_i sc0 ec0 hsc0 hec0
  have hsplit2 : ∀ o1 o2 : Nat, SilentExt ts
      (splitNodeByKey (splitNodeByKey ts sc0.key o1 OPTS) ec0.key o2 OPTS) :=
    fun o1 o2 => silentExt_trans (hone _ _ _) (hone _ _ _)
  generalize ((if sc0.isText = true then 0 else sc0.getOffset range.startKey)
    + range.startOffset) = o1
  generalize ((if ec0.isText = true then 0 else ec0.getOffset range.endKey)
    + range.endOffset) = o2
  split
  all_goals try exact ⟨fun _ => hsplit2 _ _, batchedExt_of_silent (hsplit2 _ _)⟩
  split
  all_goals try exact ⟨fun _ => hsplit2 _ _, batchedExt_of_silent (hsplit2 _ _)⟩
  split
  all_goals try exact
    ⟨fun _ => silentExt_trans (hsplit2 _ _) (hmid _ _),
     batchedExt_of_silent (silentExt_trans (hsplit2 _ _) (hmid _ _))⟩
  rename_i startBlock endBlock hsb heb
  have hmoves : ∀ (l : List (Nat × Node)) (a : TState), SilentExt a
      (l.foldl (fun acc ic => moveNodeByKey acc ic.2.key startBlock.key
        (startBlock.childNodes.length + ic.1) OPTS) a) :=
    fun l a => silentExt_foldl _
      (fun a ic => silentExt_single _ (moveNodeByKey_ops a _ _ _ OPTS) rfl) l a
  by_cases hbk : (startBlock.key != endBlock.key) = true
  · rw [if_pos hbk]
    by_cases hn : (options.normalize.getD true) = true
    · rw [if_pos hn]
      refine ⟨fun hno => absurd hn (by simp [hno]), ?_⟩
      refine batchedExt_final _ ?_ (normalizeNodeByKey_ops _ _)
      exact silentExt_trans
        (silentExt_trans (silentExt_trans (hsplit2 _ _) (hmid _ _)) (hmoves _ _))
        (silentExt_single _ (removeNodeByKey_ops _ _ OPTS) rfl)
    · rw [if_neg hn]
      refine ⟨fun _ => ?_, batchedExt_of_silent ?_⟩ <;>
        exact silentExt_trans
          (silentExt_trans (silentExt_trans (hsplit2 _ _) (hmid _ _)) (hmoves _ _))
          (silentExt_single _ (removeNodeByKey_ops _ _ OPTS) rfl)
  · rw [if_neg hbk]
    by_cases hn : (options.normalize.getD true) = true
    · rw [if_pos hn]
      refine ⟨fun hno => absurd hn (by simp [hno]), ?_⟩
      refine batchedExt_final _ ?_ (normalizeNodeByKey_ops _ _)
      exact silentExt_trans (hsplit2 _ _) (hmid _ _)
    · rw [if_neg hn]
      refine ⟨fun _ => ?_, batchedExt_of_silent ?_⟩ <;>
        exact silentExt_trans (hsplit2 _ _) (hmid _ _)

/-- The trace discipline of `insertTextAtRange`: the optional deletion is
silent, followed by a single text-insertion primitive. -/
theorem insertTextAtRange_trace (ts : TState) (range : Range) (text : Str)
    (marks : List Mark) (options : Opts) :
    BatchedExt ts (insertTextAtRange ts range text marks options) := by
  unfold insertTextAtRange
  dsimp only
  split
  · exact batchedExt_of_silent (silentExt_refl ts)
  rename_i parent hp
  by_cases hv : parent.isVoid = true
  · rw [if_pos hv]
    exact batchedExt_of_silent (silentExt_refl ts)
  rw [if_neg hv]
  have hdel : SilentExt ts
      (if range.isExpanded = true then deleteAtRange ts range OPTS else ts) := by
    split
    · exact (deleteAtRange_trace ts range OPTS).1 rfl
    · exact silentExt_refl ts
  exact batchedExt_final _ hdel (insertTextByKey_ops _ _ _ _ _ _)

/-- The trace discipline of the shared tail of `wrapBlockAtRange`. -/
theorem wrapBlockFinish_trace (ts : TState) (parent block : Node)
    (siblings : List Node) (index : Nat) (normalize : Bool) :
    BatchedExt ts (wrapBlockFinish ts parent block siblings index normalize) := by
  unfold wrapBlockFinish
  dsimp only
  have hmoves : ∀ (l : List (Nat × Node)) (a : TState), SilentExt a
      (l.foldl (fun acc ic => moveNodeByKey acc ic.2.key block.key ic.1 OPTS) a) :=
    fun l a => silentExt_foldl _
      (fun a ic => silentExt_single _ (moveNodeByKey_ops a _ _ _ OPTS) rfl) l a
  by_cases hn : normalize = true
  · rw [if_pos hn]
    refine batchedExt_final _ ?_ (normalizeNodeByKey_ops _ _)
    exact silentExt_trans ((silentExt_refl ts).insertK _ _ _) (hmoves _ _)
  · rw [if_neg hn]
    exact batchedExt_of_silent
      (silentExt_trans ((silentExt_refl ts).insertK _ _ _) (hmoves _ _))

/-- The trace discipline of `wrapBlockAtRange`. -/
theorem wrapBlockAtRange_trace (ts : TState) (range : Range) (block0 : Node)
    (options : Opts) :
    BatchedExt ts (wrapBlockAtRange ts range block0 options) := by
  unfold wrapBlockAtRange
  dsimp only
  split
  all_goals try exact batchedExt_of_silent (silentExt_refl ts)
  split
  · split
    all_goals try exact batchedExt_of_silent (silentExt_refl ts)
    exact wrapBlockFinish_trace _ _ _ _ _ _
  · split
    all_goals try exact batchedExt_of_silent (silentExt_refl ts)
    exact wrapBlockFinish_trace _ _ _ _ _ _

/-- The trace discipline of the tail of the fragment insertion: over a
silently reached state, all its steps are silent but the optional final
normalization. -/
theorem insertFragmentTail_trace {startKey startOffset : Nat}
    {isAtStart : Bool} {firstBlock lastBlock parent startChild0 : Node}
    {index offset : Nat} {nz : Bool} {b ts : TState} (hb : SilentExt ts b) :
    BatchedExt ts (insertFragmentTail b startKey startOffset isAtStart
      firstBlock lastBlock parent startChild0 index offset nz) := by
  unfold insertFragmentTail
  dsimp only
  repeat
    first
    | (by_cases hn : nz = true
       · rw [if_pos hn]
         refine batchedExt_final _ ?_ (normalizeNodeByKey_ops _ _)
         repeat'
           first
           | exact hb
           | apply SilentExt.iteState
           | apply SilentExt.splitK
           | apply SilentExt.moveFold
           | apply SilentExt.insertFold
           | apply SilentExt.removeK
           | apply SilentExt.insertK
       · rw [if_neg hn]
         apply batchedExt_of_silent
         repeat'
           first
           | exact hb
           | apply SilentExt.iteState
           | apply SilentExt.splitK
           | apply SilentExt.moveFold
           | apply SilentExt.insertFold
           | apply SilentExt.removeK
           | apply SilentExt.insertK)
    | (split
       all_goals try
         (solve
          | (apply batchedExt_of_silent
             repeat'
               first
               | exact hb
               | apply SilentExt.iteState
               | apply SilentExt.splitK
               | apply SilentExt.moveFold
               | apply SilentExt.insertFold
               | apply SilentExt.removeK
               | apply SilentExt.insertK)))

/-- The trace discipline of the body of `insertFragmentAtRange`: every
intermediate primitive is issued with `{ normalize: false }` and the repair
pass runs at most once, at the end. -/
theorem insertFragmentFinish_trace (b : TState) (range : Range) (f : Node)
    (nz : Bool) (ts : TState) (hb : SilentExt ts b) :
    BatchedExt ts (insertFragmentFinish b range f nz) := by
  unfold insertFragmentFinish
  dsimp only
  have hb2 : SilentExt ts { b with nextKey := (f.regenDescendants b.nextKey).2 } := by
    obtain ⟨new, hops, hs⟩ := hb
    exact ⟨new, hops, hs⟩
  repeat
    first
    | exact insertFragmentTail_trace
        (SilentExt.iteState _ (SilentExt.insertFold hb2 _ _ _) hb2)
    | (split
       all_goals try exact batchedExt_of_silent hb2)

/-- The trace discipline of `insertFragmentAtRange`. -/
theorem insertFragmentAtRange_trace (ts : TState) (range : Range)
    (fragment : Node) (options : Opts) :
    BatchedExt ts (insertFragmentAtRange ts range fragment options) := by
  unfold insertFragmentAtRange
  dsimp only
  have hdel : SilentExt ts
      (if range.isExpanded = true then deleteAtRange ts range OPTS else ts) := by
    split
    · exact (deleteAtRange_trace ts range OPTS).1 rfl
    · exact silentExt_refl ts
  by_cases hf : (fragment.length == 0) = true
  · rw [if_pos hf]
    exact batchedExt_of_silent hdel
  · rw [if_neg hf]
    exact insertFragmentFinish_trace _ _ _ _ ts hdel

/-- C8 amended: the composite operations built on the module-level OPTS
constant — `deleteAtRange`, `insertFragmentAtRange`, `wrapBlockAtRange` — and
`insertTextAtRange` pass the do-not-normalize flag to each of their
intermediate primitives and invoke the schema-repair pass at most once, at
the end of the composite; the per-leaf operations (`addMarkAtRange`,
`removeMarkAtRange`, `setBlockAtRange`, `setInlineAtRange`) and
`insertBlockAtRange` instead forward the caller's normalize flag (default
true) to every per-leaf or intermediate primitive, and `unwrapInlineAtRange`
issues its intermediate moves and removals without any flag, so those
composites can invoke the repair pass more than once (see the
counterexample). -/
theorem opts_composites_are_batched (d : Node) (k : Nat) (range : Range)
    (options : Opts) (fragment block0 : Node) (text : Str)
    (marks : List Mark) :
    batched (deleteAtRange ⟨d, k, []⟩ range options).ops ∧
    batched (insertFragmentAtRange ⟨d, k, []⟩ range fragment options).ops ∧
    batched (wrapBlockAtRange ⟨d, k, []⟩ range block0 options).ops ∧
    batched (insertTextAtRange ⟨d, k, []⟩ range text marks options).ops :=
  ⟨batched_of_batchedExt (deleteAtRange_trace _ range options).2,
   batched_of_batchedExt (insertFragmentAtRange_trace _ range fragment options),
   batched_of_batchedExt (wrapBlockAtRange_trace _ range block0 options),
   batched_of_batchedExt (insertTextAtRange_trace _ range text marks options)⟩

/-- Witness for the amended C8 at the cross-block deletion of `docAB`, whose
trace holds six silent intermediate steps and one final normalization. -/
theorem opts_composites_are_batched_witness :
    batched (deleteAtRange tsAB rAB noOpts).ops ∧
    ((deleteAtRange tsAB rAB noOpts).ops.map Op.normalizes) =
      [false, false, false, false, false, false, true] :=
  ⟨(opts_composites_are_batched docAB 5 rAB noOpts fragAB paraA [] []).1, rfl⟩

/-! ## C10: the suffix of `wrapTextAtRange` defaults to the prefix -/

/-- Inserting text at a collapsed caret of the one-paragraph document splices
the text into the leaf at the caret offset, with a single silent primitive
(the flag was specified, so the buggy PERF guard overwrites it with
`isExpanded = false`). -/
theorem insertText_mkDoc (t p : Str) (ml : List Mark) (s : Nat) (nzb : Bool)
    (ck : Nat) (ops : List Op) :
    insertTextAtRange ⟨mkDoc t ml, ck, ops⟩ ⟨2, s, 2, s, false⟩ p []
        ⟨some nzb⟩ =
      ⟨mkDoc (t.take s ++ p ++ t.drop s) ml, ck,
       ops ++ [.insertText 2 s p [] false]⟩ := by
  unfold insertTextAtRange
  simp [mkDoc, parentOf, ancestorsOf, Node.chainTo, Node.chainToList,
        Range.isExpanded, Range.isCollapsed, Range.startKey, Range.startOffset,
        Node.isVoid, insertTextByKey, Node.editLeaf, Node.editLeafList,
        deleteAtRange]

/-- Taking up to the moved end point of the spliced leaf keeps the prefix and
the covered middle of the original text. -/
theorem splice_take (t p : Str) (s e : Nat) (hse : s ≤ e)
    (het : e ≤ t.length) :
    (t.take s ++ (p ++ t.drop s)).take (e + p.length) =
      t.take s ++ (p ++ (t.drop s).take (e - s)) := by
  have hs : (t.take s).length = s := by rw [List.length_take]; omega
  have h1 : (t.take s).take (e + p.length) = t.take s :=
    List.take_of_length_le (by rw [hs]; omega)
  have h2 : p.take (e + p.length - s) = p :=
    List.take_of_length_le (by omega)
  have h3 : e + p.length - s - p.length = e - s := by omega
  rw [List.take_append_eq_append_take, h1, hs, List.take_append_eq_append_take,
      h2, h3]

/-- Dropping past the moved end point of the spliced leaf leaves the suffix
of the original text. -/
theorem splice_drop (t p : Str) (s e : Nat) (hse : s ≤ e)
    (het : e ≤ t.length) :
    (t.take s ++ (p ++ t.drop s)).drop (e + p.length) = t.drop e := by
  have hs : (t.take s).length = s := by rw [List.length_take]; omega
  have h1 : (t.take s).drop (e + p.length) = [] :=
    List.drop_eq_nil_of_le (by rw [hs]; omega)
  have h2 : p.drop (e + p.length - s) = [] :=
    List.drop_eq_nil_of_le (by omega)
  have h3 : s + (e + p.length - s - p.length) = e := by omega
  rw [List.drop_append_eq_append_drop, h1, hs, List.drop_append_eq_append_drop,
      h2, List.drop_drop, h3]
  simp

/-- C10: calling `wrapTextAtRange` without a suffix argument uses the prefix
for both insertions: over the one-paragraph document, the same text `p` is
inserted before the range's start and after its end, the end point having
first been moved forward by `p.length` because start and end share a leaf;
the two recorded primitives both insert `p`, and the resulting leaf reads
`before ++ p ++ middle ++ p ++ after`. -/
theorem wrapText_default_suffix (t p : Str) (ml : List Mark) (s e : Nat)
    (hse : s ≤ e) (het : e ≤ t.length) :
    wrapTextAtRangeNoSuffix ⟨mkDoc t ml, 3, []⟩ ⟨2, s, 2, e, false⟩ p noOpts =
      ⟨mkDoc (t.take s ++ (p ++ ((t.drop s).take (e - s) ++ (p ++ t.drop e)))) ml,
       3, [.insertText 2 s p [] false, .insertText 2 (e + p.length) p [] false]⟩ := by
  unfold wrapTextAtRangeNoSuffix wrapTextAtRange
  simp only [Range.startKey, Range.endKey, Range.collapseToStart,
    Range.collapseToEnd, Range.startOffset, Range.endOffset, Range.moveForward,
    Bool.false_eq_true, if_false, beq_self_eq_true, if_true]
  rw [insertText_mkDoc]
  rw [show (t.take s ++ p ++ t.drop s) = (t.take s ++ (p ++ t.drop s)) by
    simp [List.append_assoc]]
  rw [insertText_mkDoc]
  rw [splice_take t p s e hse het, splice_drop t p s e hse het]
  simp [List.append_assoc]

/-! ## Key multiset facts about the tree operations (towards C2) -/

theorem key_mem_keys : ∀ n : Node, n.key ∈ n.keys
  | .text _ _ _ => by simp [Node.keys, Node.key]
  | .elem _ _ _ _ _ _ => by simp [Node.keys, Node.key]

mutual

theorem editLeaf_keys (k : Nat) (f : Str → List Mark → Str × List Mark) :
    ∀ n : Node, (Node.editLeaf k f n).keys = n.keys
  | .text k' s m => by
    simp only [Node.editLeaf]
    split <;> simp [Node.keys]
  | .elem kd k' t v d ns => by
    simp [Node.editLeaf, Node.keys, editLeafList_keys k f ns]

theorem editLeafList_keys (k : Nat) (f : Str → List Mark → Str × List Mark) :
    ∀ ns : List Node,
      Node.keysList (Node.editLeafList k f ns) = Node.keysList ns
  | [] => rfl
  | n :: ns => by
    simp [Node.editLeafList, Node.keysList, editLeaf_keys k f n,
      editLeafList_keys k f ns]

end

theorem keysList_append : ∀ l1 l2 : List Node,
    Node.keysList (l1 ++ l2) = Node.keysList l1 ++ Node.keysList l2
  | [], l2 => rfl
  | n :: ns, l2 => by
    simp [Node.keysList, keysList_append ns l2]

theorem keys_subperm_keysList_of_mem {c : Node} :
    ∀ {ns : List Node}, c ∈ ns → c.keys.Subperm (Node.keysList ns) := by
  intro ns hmem
  induction ns with
  | nil => cases hmem
  | cons n ns ih =>
    rcases List.mem_cons.1 hmem with rfl | h
    · exact (List.sublist_append_left _ _).subperm
    · exact ((ih h).trans (List.sublist_append_right _ _).subperm)

/-- A list permutation obtained from equality of the induced multisets. -/
theorem perm_of_mult {l1 l2 : List Nat} (h : (l1 : Multiset Nat) = l2) :
    l1.Perm l2 := Multiset.coe_eq_coe.1 h

/-- The induced multisets of permuted lists are equal. -/
theorem mult_of_perm {l1 l2 : List Nat} (h : l1.Perm l2) :
    (l1 : Multiset Nat) = l2 := Multiset.coe_eq_coe.2 h

mutual

theorem takeOut_mkeys : ∀ (n : Node) (k : Nat) (r : Node × Node),
    n.takeOut k = some r →
      ((r.1.keys : Multiset Nat) + (r.2.keys : Multiset Nat)) =
        (n.keys : Multiset Nat)
  | .text _ _ _, k, r => by simp [Node.takeOut]
  | .elem kd k' t v d ns, k, r => by
    simp only [Node.takeOut]
    cases h : Node.takeOutList ns k with
    | none => simp
    | some rr =>
      intro hr
      obtain rfl : _ = r := Option.some_inj.1 hr
      have ih := takeOutList_mkeys ns k rr h
      simp only [Node.keys, ← Multiset.cons_coe, ← Multiset.coe_add,
        ← Multiset.singleton_add] at ih ⊢
      rw [← ih]
      simp only [add_comm, add_left_comm, add_assoc]

theorem takeOutList_mkeys : ∀ (ns : List Node) (k : Nat)
    (r : List Node × Node),
    Node.takeOutList ns k = some r →
      ((Node.keysList r.1 : Multiset Nat) + (r.2.keys : Multiset Nat)) =
        (Node.keysList ns : Multiset Nat)
  | [], k, r => by simp [Node.takeOutList]
  | n :: ns, k, r => by
    simp only [Node.takeOutList]
    split
    · intro hr
      obtain rfl : _ = r := Option.some_inj.1 hr
      simp only [Node.keysList, ← Multiset.coe_add]
      simp only [add_comm, add_left_comm, add_assoc]
    · cases h : n.takeOut k with
      | some rr =>
        intro hr
        obtain rfl : _ = r := Option.some_inj.1 hr
        have ih := takeOut_mkeys n k rr h
        simp only [Node.keysList, ← Multiset.coe_add] at ih ⊢
        rw [← ih]
        simp only [add_comm, add_left_comm, add_assoc]
      | none =>
        cases h2 : Node.takeOutList ns k with
        | none => simp
        | some rr =>
          intro hr
          obtain rfl : _ = r := Option.some_inj.1 hr
          have ih := takeOutList_mkeys ns k rr h2
          simp only [Node.keysList, ← Multiset.coe_add] at ih ⊢
          rw [← ih]
          simp only [add_comm, add_left_comm, add_assoc]

end

mutual

theorem insertChild_mkeys : ∀ (n : Node) (pk i : Nat) (c n' : Node),
    Node.insertChild n pk i c = some n' →
      (n'.keys : Multiset Nat) = (n.keys : Multiset Nat) + (c.keys : Multiset Nat)
  | .text _ _ _, pk, i, c, n' => by simp [Node.insertChild]
  | .elem kd k' t v d ns, pk, i, c, n' => by
    simp only [Node.insertChild]
    split
    · intro hr
      obtain rfl : _ = n' := Option.some_inj.1 hr
      have hsplit : Node.keysList (ns.take i ++ [c] ++ ns.drop i) =
          Node.keysList (ns.take i) ++ (c.keys ++ []) ++ Node.keysList (ns.drop i) := by
        rw [keysList_append, keysList_append]
        rfl
      have htd : Node.keysList (ns.take i) ++ Node.keysList (ns.drop i) =
          Node.keysList ns := by
        rw [← keysList_append, List.take_append_drop]
      simp only [Node.keys, hsplit, ← Multiset.cons_coe, ← Multiset.coe_add,
        ← Multiset.singleton_add, ← htd]
      simp only [add_comm, add_left_comm, add_assoc]
      simp
    · cases h : Node.insertChildList ns pk i c with
      | none => simp
      | some ns' =>
        intro hr
        obtain rfl : _ = n' := Option.some_inj.1 hr
        have ih := insertChildList_mkeys ns pk i c ns' h
        simp only [Node.keys, ← Multiset.cons_coe, ← Multiset.coe_add,
          ← Multiset.singleton_add, ih]
        simp only [add_comm, add_left_comm, add_assoc]

theorem insertChildList_mkeys : ∀ (ns : List Node) (pk i : Nat) (c : Node)
    (ns' : List Node),
    Node.insertChildList ns pk i c = some ns' →
      (Node.keysList ns' : Multiset Nat) =
        (Node.keysList ns : Multiset Nat) + (c.keys : Multiset Nat)
  | [], pk, i, c, ns' => by simp [Node.insertChildList]
  | n :: ns, pk, i, c, ns' => by
    simp only [Node.insertChildList]
    cases h : Node.insertChild n pk i c with
    | some n2 =>
      intro hr
      obtain rfl : _ = ns' := Option.some_inj.1 hr
      have ih := insertChild_mkeys n pk i c n2 h
      simp only [Node.keysList, ← Multiset.coe_add, ih]
      simp only [add_comm, add_left_comm, add_assoc]
    | none =>
      cases h2 : Node.insertChildList ns pk i c with
      | none => simp
      | some ns2 =>
        intro hr
        obtain rfl : _ = ns' := Option.some_inj.1 hr
        have ih := insertChildList_mkeys ns pk i c ns2 h2
        simp only [Node.keysList, ← Multiset.coe_add, ih]
        simp only [add_comm, add_left_comm, add_assoc]

end

/-- The keys of a node: its own key plus the keys below it. -/
theorem keys_eq_key_add_children : ∀ n : Node,
    (n.keys : Multiset Nat) =
      {n.key} + (Node.keysList n.childNodes : Multiset Nat)
  | .text k s m => by
    simp [Node.keys, Node.key, Node.childNodes, Node.keysList]
  | .elem kd k t v d ns => by
    simp only [Node.keys, Node.key, Node.childNodes, ← Multiset.cons_coe,
      ← Multiset.singleton_add]

theorem keys_le_keysList_of_mem {c : Node} : ∀ {ns : List Node}, c ∈ ns →
    (c.keys : Multiset Nat) ≤ (Node.keysList ns : Multiset Nat) := by
  intro ns h
  induction ns with
  | nil => cases h
  | cons n ns ih =>
    rcases List.mem_cons.1 h with rfl | h2
    · rw [show Node.keysList (c :: ns) = c.keys ++ Node.keysList ns from rfl]
      simp only [← Multiset.coe_add]
      exact Multiset.le_add_right _ _
    · refine le_trans (ih h2) ?_
      rw [show Node.keysList (n :: ns) = n.keys ++ Node.keysList ns from rfl]
      simp only [← Multiset.coe_add]
      exact le_add_self

/-- Shuffling helper for key-multiset bookkeeping. -/
theorem mset_shuffle1 {a b kn fr s t : Multiset Nat} (h : a + b = kn + fr) :
    (s + a) + (t + b) = (s + kn) + (fr + t) := by
  have h2 : (s + a) + (t + b) = (s + t) + (a + b) := by
    simp only [add_comm, add_left_comm, add_assoc]
  rw [h2, h]
  simp only [add_comm, add_left_comm, add_assoc]

/-- Shuffling helper for key-multiset bookkeeping. -/
theorem mset_shuffle2 {a b kn fr : Multiset Nat} (h : a + b = kn + fr) :
    ∀ n : Multiset Nat, a + (b + n) = (kn + n) + fr := by
  intro n
  rw [← add_assoc, h]
  simp only [add_comm, add_left_comm, add_assoc]

/-- Shuffling helper for key-multiset bookkeeping. -/
theorem mset_shuffle3 {a b kn fr : Multiset Nat} (h : a + b = kn + fr) :
    ∀ n : Multiset Nat, (n + a) + b = (n + kn) + fr := by
  intro n
  rw [add_assoc, h, ← add_assoc]

theorem Subtree.trans {a b c : Node} (h1 : Subtree a b)
    (h2 : Subtree b c) : Subtree a c := by
  induction h2 with
  | refl => exact h1
  | child hc _ ih => exact Subtree.child hc ih

theorem subtree_inv {s t : Node} (h : Subtree s t) :
    s = t ∨ SubtreeL s t.childNodes := by
  cases h with
  | refl => exact Or.inl rfl
  | child hc hs => exact Or.inr ⟨_, hc, hs⟩

theorem subtree_keys_le {s t : Node} (h : Subtree s t) :
    (s.keys : Multiset Nat) ≤ (t.keys : Multiset Nat) := by
  induction h with
  | refl => exact le_refl _
  | child hc _ ih =>
    refine le_trans ih (le_trans (keys_le_keysList_of_mem hc) ?_)
    rw [keys_eq_key_add_children]
    exact le_add_self

theorem subtreeL_keys_le {s : Node} {ns : List Node} (h : SubtreeL s ns) :
    (s.keys : Multiset Nat) ≤ (Node.keysList ns : Multiset Nat) := by
  obtain ⟨c, hc, hs⟩ := h
  exact le_trans (subtree_keys_le hs) (keys_le_keysList_of_mem hc)

theorem subtreeL_key_mem {s : Node} {ns : List Node} (h : SubtreeL s ns) :
    s.key ∈ Node.keysList ns :=
  Multiset.mem_coe.1 (Multiset.mem_of_le (subtreeL_keys_le h)
    (Multiset.mem_coe.2 (key_mem_keys s)))

theorem subtree_key_mem {s t : Node} (h : Subtree s t) : s.key ∈ t.keys :=
  Multiset.mem_coe.1 (Multiset.mem_of_le (subtree_keys_le h)
    (Multiset.mem_coe.2 (key_mem_keys s)))

mutual

/-- In a tree whose key list is duplicate-free, a subtree is determined by
its key. -/
theorem subtree_unique : ∀ (n : Node), n.keys.Nodup → ∀ (s s' : Node),
    Subtree s n → Subtree s' n → s.key = s'.key → s = s'
  | .text k str m, _, s, s', h1, h2, _ => by
    rcases subtree_inv h1 with rfl | ⟨c, hc, _⟩
    · rcases subtree_inv h2 with rfl | ⟨c, hc, _⟩
      · rfl
      · simp [Node.childNodes] at hc
    · simp [Node.childNodes] at hc
  | .elem kd k t v d ns, hnd, s, s', h1, h2, hk => by
    have hnd2 : (k :: Node.keysList ns).Nodup := by
      simpa [Node.keys] using hnd
    have hknot : k ∉ Node.keysList ns := (List.nodup_cons.1 hnd2).1
    have hndL : (Node.keysList ns).Nodup := (List.nodup_cons.1 hnd2).2
    rcases subtree_inv h1 with rfl | hL1
    · rcases subtree_inv h2 with rfl | hL2
      · rfl
      · refine absurd (show k ∈ Node.keysList ns from ?_) hknot
        have := subtreeL_key_mem (by simpa [Node.childNodes] using hL2)
        rwa [← hk] at this
    · rcases subtree_inv h2 with rfl | hL2
      · refine absurd (show k ∈ Node.keysList ns from ?_) hknot
        have := subtreeL_key_mem (by simpa [Node.childNodes] using hL1)
        rwa [hk] at this
      · exact subtreeL_unique ns hndL s s'
          (by simpa [Node.childNodes] using hL1)
          (by simpa [Node.childNodes] using hL2) hk

/-- In a forest whose key list is duplicate-free, a subtree is determined by
its key. -/
theorem subtreeL_unique : ∀ (ns : List Node), (Node.keysList ns).Nodup →
    ∀ (s s' : Node), SubtreeL s ns → SubtreeL s' ns → s.key = s'.key → s = s'
  | [], _, s, s', h1, _, _ => by
    obtain ⟨c, hc, _⟩ := h1
    cases hc
  | n :: ns, hnd, s, s', h1, h2, hk => by
    have hndl : (n.keys ++ Node.keysList ns).Nodup := by
      simpa [Node.keysList] using hnd
    rw [List.nodup_append] at hndl
    have h1' : Subtree s n ∨ SubtreeL s ns := by
      obtain ⟨c, hc, hs⟩ := h1
      rcases List.mem_cons.1 hc with rfl | hc2
      · exact Or.inl hs
      · exact Or.inr ⟨c, hc2, hs⟩
    have h2' : Subtree s' n ∨ SubtreeL s' ns := by
      obtain ⟨c, hc, hs⟩ := h2
      rcases List.mem_cons.1 hc with rfl | hc2
      · exact Or.inl hs
      · exact Or.inr ⟨c, hc2, hs⟩
    rcases h1' with hs1 | hs1 <;> rcases h2' with hs2 | hs2
    · exact subtree_unique n hndl.1 s s' hs1 hs2 hk
    · refine absurd (show s.key ∈ Node.keysList ns from ?_)
        (fun hm => hndl.2.2 (subtree_key_mem hs1) hm)
      rw [hk]
      exact subtreeL_key_mem hs2
    · refine absurd (show s'.key ∈ Node.keysList ns from ?_)
        (fun hm => hndl.2.2 (subtree_key_mem hs2) hm)
      rw [← hk]
      exact subtreeL_key_mem hs1
    · exact subtreeL_unique ns hndl.2.1 s s' hs1 hs2 hk

end

mutual

/-- The node removed by `takeOut` carries the requested key and occurs as a
strict subtree. -/
theorem takeOut_subtree : ∀ (n : Node) (k : Nat) (r : Node × Node),
    n.takeOut k = some r → r.2.key = k ∧ SubtreeL r.2 n.childNodes
  | .text _ _ _, k, r => by simp [Node.takeOut]
  | .elem kd k' t v d ns, k, r => by
    simp only [Node.takeOut]
    cases h : Node.takeOutList ns k with
    | none => simp
    | some rr =>
      intro hr
      obtain rfl : _ = r := Option.some_inj.1 hr
      have ih := takeOutList_subtree ns k rr h
      exact ⟨ih.1, by simpa [Node.childNodes] using ih.2⟩

theorem takeOutList_subtree : ∀ (ns : List Node) (k : Nat)
    (r : List Node × Node),
    Node.takeOutList ns k = some r → r.2.key = k ∧ SubtreeL r.2 ns
  | [], k, r => by simp [Node.takeOutList]
  | n :: ns, k, r => by
    simp only [Node.takeOutList]
    split
    · intro hr
      obtain rfl : _ = r := Option.some_inj.1 hr
      rename_i hkey
      exact ⟨by simpa using hkey, n, List.mem_cons_self n ns, Subtree.refl n⟩
    · cases h : n.takeOut k with
      | some rr =>
        intro hr
        obtain rfl : _ = r := Option.some_inj.1 hr
        have ih := takeOut_subtree n k rr h
        obtain ⟨c, hc, hs⟩ := ih.2
        exact ⟨ih.1, n, List.mem_cons_self n ns, Subtree.child hc hs⟩
      | none =>
        cases h2 : Node.takeOutList ns k with
        | none => simp
        | some rr =>
          intro hr
          obtain rfl : _ = r := Option.some_inj.1 hr
          have ih := takeOutList_subtree ns k rr h2
          obtain ⟨c, hc, hs⟩ := ih.2
          exact ⟨ih.1, c, List.mem_cons_of_mem n hc, hs⟩

end

/-- `takeOut` keeps the root node (and so its key). -/
theorem takeOut_root_key : ∀ (n : Node) (k : Nat) (r : Node × Node),
    n.takeOut k = some r → r.1.key = n.key
  | .text _ _ _, k, r => by simp [Node.takeOut]
  | .elem kd k' t v d ns, k, r => by
    simp only [Node.takeOut]
    cases h : Node.takeOutList ns k with
    | none => simp
    | some rr =>
      intro hr
      obtain rfl : _ = r := Option.some_inj.1 hr
      rfl

theorem mem_keys_cases : ∀ (n : Node) (k : Nat), k ∈ n.keys →
    k = n.key ∨ k ∈ Node.keysList n.childNodes := by
  intro n k h
  cases n with
  | text k' s m => exact Or.inl (by simpa [Node.keys, Node.key] using h)
  | elem kd k' t v d ns =>
    simpa [Node.keys, Node.key, Node.childNodes] using h

mutual

/-- `takeOut` succeeds on every key occurring strictly below the root. -/
theorem takeOut_isSome : ∀ (n : Node) (k : Nat),
    k ∈ Node.keysList n.childNodes → (n.takeOut k).isSome = true
  | .text _ _ _, k => by simp [Node.childNodes, Node.keysList]
  | .elem kd k' t v d ns, k => by
    intro hm
    have h1 := takeOutList_isSome ns k (by simpa [Node.childNodes] using hm)
    simp only [Node.takeOut]
    cases h : Node.takeOutList ns k with
    | none => rw [h] at h1; simp at h1
    | some rr => simp

theorem takeOutList_isSome : ∀ (ns : List Node) (k : Nat),
    k ∈ Node.keysList ns → (Node.takeOutList ns k).isSome = true
  | [], k => by simp [Node.keysList]
  | n :: ns, k => by
    intro hm
    simp only [Node.takeOutList]
    by_cases hk : (n.key == k) = true
    · rw [if_pos hk]; simp
    · rw [if_neg hk]
      have hm2 : k ∈ n.keys ∨ k ∈ Node.keysList ns := by
        simpa [Node.keysList] using hm
      rcases hm2 with hkn | hkns
      · rcases mem_keys_cases n k hkn with rfl | hc
        · exact absurd (by simp) hk
        · have h1 := takeOut_isSome n k hc
          cases h : n.takeOut k with
          | none => rw [h] at h1; simp at h1
          | some rr => simp
      · cases h : n.takeOut k with
        | some rr => simp
        | none =>
          have h1 := takeOutList_isSome ns k hkns
          cases h2 : Node.takeOutList ns k with
          | none => rw [h2] at h1; simp at h1
          | some rr => simp

end

mutual

/-- A chain returned by `chainTo` consists of subtrees of the root and ends
in a node carrying the requested key that is a subtree of every chain
element. -/
theorem chainTo_facts : ∀ (n : Node) (k : Nat) (ch : List Node),
    n.chainTo k = some ch →
      (∀ x ∈ ch, Subtree x n) ∧
      ∃ l, ch.getLast? = some l ∧ l ∈ ch ∧ l.key = k ∧ ∀ x ∈ ch, Subtree l x
  | .text k' s m, k, ch => by
    simp only [Node.chainTo]
    split
    · intro hr
      obtain rfl : _ = ch := Option.some_inj.1 hr
      rename_i hkey
      refine ⟨?_, ⟨.text k' s m, rfl, by simp, by simpa [Node.key] using hkey, ?_⟩⟩
      · intro x hx
        obtain rfl : x = _ := List.mem_singleton.1 hx
        exact .refl _
      · intro x hx
        obtain rfl : x = _ := List.mem_singleton.1 hx
        exact .refl _
    · simp
  | .elem kd k' t v d ns, k, ch => by
    simp only [Node.chainTo]
    split
    · intro hr
      obtain rfl : _ = ch := Option.some_inj.1 hr
      rename_i hkey
      refine ⟨?_, ⟨.elem kd k' t v d ns, rfl, by simp,
        by simpa [Node.key] using hkey, ?_⟩⟩
      · intro x hx
        obtain rfl : x = _ := List.mem_singleton.1 hx
        exact .refl _
      · intro x hx
        obtain rfl : x = _ := List.mem_singleton.1 hx
        exact .refl _
    · cases h : Node.chainToList ns k with
      | none => simp
      | some c =>
        intro hr
        obtain rfl : _ = ch := Option.some_inj.1 hr
        obtain ⟨Hsub, l, hlast, hlmem, hlk, Hl⟩ := chainToList_facts ns k c h
        have hlsubn : Subtree l (.elem kd k' t v d ns) := by
          obtain ⟨cc, hcc, hscc⟩ := Hsub l hlmem
          exact Subtree.child (by simpa [Node.childNodes] using hcc) hscc
        constructor
        · intro x hx
          rcases List.mem_cons.1 hx with rfl | hx2
          · exact .refl _
          · obtain ⟨cc, hcc, hscc⟩ := Hsub x hx2
            exact Subtree.child (by simpa [Node.childNodes] using hcc) hscc
        · refine ⟨l, ?_, List.mem_cons_of_mem _ hlmem, hlk, ?_⟩
          · cases c with
            | nil => simp at hlast
            | cons c0 c1 => simpa [List.getLast?_cons_cons] using hlast
          · intro x hx
            rcases List.mem_cons.1 hx with rfl | hx2
            · exact hlsubn
            · exact Hl x hx2

theorem chainToList_facts : ∀ (ns : List Node) (k : Nat) (ch : List Node),
    Node.chainToList ns k = some ch →
      (∀ x ∈ ch, SubtreeL x ns) ∧
      ∃ l, ch.getLast? = some l ∧ l ∈ ch ∧ l.key = k ∧ ∀ x ∈ ch, Subtree l x
  | [], k, ch => by simp [Node.chainToList]
  | n :: ns, k, ch => by
    simp only [Node.chainToList]
    cases h : n.chainTo k with
    | some c =>
      intro hr
      obtain rfl : _ = ch := Option.some_inj.1 hr
      obtain ⟨Hsub, l, hlast, hlmem, hlk, Hl⟩ := chainTo_facts n k c h
      exact ⟨fun x hx => ⟨n, List.mem_cons_self n ns, Hsub x hx⟩,
        l, hlast, hlmem, hlk, Hl⟩
    | none =>
      intro hr
      obtain ⟨Hsub, l, hlast, hlmem, hlk, Hl⟩ := chainToList_facts ns k ch hr
      refine ⟨fun x hx => ?_, l, hlast, hlmem, hlk, Hl⟩
      obtain ⟨c, hc, hs⟩ := Hsub x hx
      exact ⟨c, List.mem_cons_of_mem n hc, hs⟩

end

/-- A chain starts at the node it was requested from. -/
theorem chainTo_head : ∀ (n : Node) (k : Nat) (ch : List Node),
    n.chainTo k = some ch → ∃ ch2, ch = n :: ch2
  | .text k' s m, k, ch => by
    simp only [Node.chainTo]
    split
    · intro hr
      exact ⟨[], (Option.some_inj.1 hr).symm⟩
    · simp
  | .elem kd k' t v d ns, k, ch => by
    simp only [Node.chainTo]
    split
    · intro hr
      exact ⟨[], (Option.some_inj.1 hr).symm⟩
    · cases h : Node.chainToList ns k with
      | none => simp
      | some c =>
        intro hr
        exact ⟨c, (Option.some_inj.1 hr).symm⟩

/-- A chain of two or more nodes continues with a chain through the root's
children. -/
theorem chainTo_tail : ∀ (n : Node) (k : Nat) (ch2 : List Node),
    n.chainTo k = some (n :: ch2) → ch2 ≠ [] →
      Node.chainToList n.childNodes k = some ch2
  | .text k' s m, k, ch2 => by
    simp only [Node.chainTo]
    split
    · intro hr hne
      have h2 := Option.some_inj.1 hr
      injection h2 with h2a h2b
      exact absurd h2b.symm hne
    · simp
  | .elem kd k' t v d ns, k, ch2 => by
    simp only [Node.chainTo]
    split
    · intro hr hne
      have h2 := Option.some_inj.1 hr
      injection h2 with h2a h2b
      exact absurd h2b.symm hne
    · cases h : Node.chainToList ns k with
      | none => simp
      | some c =>
        intro hr hne
        have h2 := Option.some_inj.1 hr
        injection h2 with h2a h2b
        rw [show Node.childNodes (.elem kd k' t v d ns) = ns from rfl, h, h2b]

/-- Every proper ancestor (root excluded) is a strict subtree of the root
and an ancestor of the chain's final node, which carries the requested
key. -/
theorem mem_ancestors_drop1 {root x : Node} {key : Nat}
    (hx : x ∈ (ancestorsOf root key).drop 1) :
    SubtreeL x root.childNodes ∧
      ∃ l, descendantAt root key = some l ∧ l.key = key ∧ Subtree l x := by
  cases hch : root.chainTo key with
  | none =>
    rw [ancestorsOf, hch] at hx
    simp at hx
  | some ch =>
    rw [ancestorsOf, hch] at hx
    simp only [Option.getD_some] at hx
    obtain ⟨ch2, rfl⟩ := chainTo_head root key ch hch
    cases ch2 with
    | nil => simp at hx
    | cons c0 c1 =>
      have hx2 : x ∈ c0 :: c1 := by
        have he : ((root :: c0 :: c1).dropLast).drop 1 = (c0 :: c1).dropLast :=
          rfl
        rw [he] at hx
        exact (List.dropLast_sublist _).subset hx
      have htail : Node.chainToList root.childNodes key = some (c0 :: c1) :=
        chainTo_tail root key (c0 :: c1) hch (by simp)
      obtain ⟨Hsub, l, hlast, hlmem, hlk, Hl⟩ :=
        chainToList_facts root.childNodes key (c0 :: c1) htail
      refine ⟨Hsub x hx2, l, ?_, hlk, Hl x hx2⟩
      rw [descendantAt, hch, Option.some_bind, List.getLast?_cons_cons]
      exact hlast

/-- A `getFurthest` hit is a strict subtree of the root, above the node with
the requested key. -/
theorem getFurthest_facts {root x : Node} {key : Nat} {p : Node → Bool}
    (h : getFurthest root key p = some x) :
    SubtreeL x root.childNodes ∧
      ∃ l, descendantAt root key = some l ∧ l.key = key ∧ Subtree l x := by
  unfold getFurthest at h
  exact mem_ancestors_drop1 (List.mem_of_find?_eq_some h)

/-- A `getClosest` hit is a strict subtree of the root, above the node with
the requested key. -/
theorem getClosest_facts {root x : Node} {key : Nat} {p : Node → Bool}
    (h : getClosest root key p = some x) :
    SubtreeL x root.childNodes ∧
      ∃ l, descendantAt root key = some l ∧ l.key = key ∧ Subtree l x := by
  unfold getClosest at h
  exact mem_ancestors_drop1 (List.mem_reverse.1 (List.mem_of_find?_eq_some h))

theorem mem_of_head? {α : Type} {l : List α} {a : α} (h : l.head? = some a) :
    a ∈ l := by
  cases l with
  | nil => simp at h
  | cons x xs =>
    obtain rfl : x = a := by simpa using h
    exact List.mem_cons_self x xs

theorem mem_dedupByKey : ∀ {l : List Node} {x : Node},
    x ∈ dedupByKey l → x ∈ l := by
  intro l
  induction l with
  | nil => intro x h; simp [dedupByKey] at h
  | cons n ns ih =>
    intro x h
    have h2 : x = n ∨ (x ∈ dedupByKey ns ∧ ¬ x.key = n.key) := by
      simpa [dedupByKey] using h
    rcases h2 with rfl | ⟨h3, _⟩
    · exact List.mem_cons_self _ _
    · exact List.mem_cons_of_mem _ (ih h3)

/-- Every block of `getBlocks` is the deepest block ancestor of some text
leaf. -/
theorem mem_blocksOf {root b : Node} (h : b ∈ blocksOf root) :
    ∃ tk, closestBlock root tk = some b := by
  unfold blocksOf at h
  obtain ⟨t, _, ht⟩ := List.mem_filterMap.1 (mem_dedupByKey h)
  exact ⟨t.key, ht⟩

mutual

/-- Key regeneration advances the counter and produces pairwise-distinct
keys inside the traversed counter interval. -/
theorem regenNode_spec : ∀ (n : Node) (c : Nat),
    c < (Node.regenNode n c).2 ∧ ((Node.regenNode n c).1.keys).Nodup ∧
      ∀ x ∈ (Node.regenNode n c).1.keys, c ≤ x ∧ x < (Node.regenNode n c).2
  | .text k s m, c => by
    refine ⟨Nat.lt_succ_self c, by simp [Node.regenNode, Node.keys], ?_⟩
    intro x hx
    obtain rfl : x = c := by simpa [Node.regenNode, Node.keys] using hx
    exact ⟨le_refl x, Nat.lt_succ_self x⟩
  | .elem kd k t v d ns, c => by
    obtain ⟨hle, hnd, hbd⟩ := regenForest_spec ns (c + 1)
    dsimp only [Node.regenNode]
    refine ⟨lt_of_lt_of_le (Nat.lt_succ_self c) hle, ?_, ?_⟩
    · simp only [Node.keys, List.nodup_cons]
      refine ⟨fun hmem => ?_, hnd⟩
      exact absurd (hbd c hmem).1 (by simp)
    · intro x hx
      rcases List.mem_cons.1 hx with rfl | hx2
      · exact ⟨le_refl x, lt_of_lt_of_le (Nat.lt_succ_self x) hle⟩
      · obtain ⟨h1, h2⟩ := hbd x hx2
        exact ⟨le_trans (Nat.le_succ c) h1, h2⟩

theorem regenForest_spec : ∀ (ns : List Node) (c : Nat),
    c ≤ (Node.regenForest ns c).2 ∧
      (Node.keysList (Node.regenForest ns c).1).Nodup ∧
      ∀ x ∈ Node.keysList (Node.regenForest ns c).1,
        c ≤ x ∧ x < (Node.regenForest ns c).2
  | [], c => by
    refine ⟨le_refl c, by simp [Node.regenForest, Node.keysList], ?_⟩
    intro x hx
    simp [Node.regenForest, Node.keysList] at hx
  | n :: ns, c => by
    obtain ⟨hlt1, hnd1, hbd1⟩ := regenNode_spec n c
    obtain ⟨hle2, hnd2, hbd2⟩ := regenForest_spec ns (Node.regenNode n c).2
    dsimp only [Node.regenForest]
    refine ⟨le_trans (le_of_lt hlt1) hle2, ?_, ?_⟩
    · simp only [Node.keysList]
      rw [List.nodup_append]
      refine ⟨hnd1, hnd2, ?_⟩
      intro a ha hb
      exact absurd (hbd2 a hb).1 (not_le.2 (hbd1 a ha).2)
    · intro x hx
      simp only [Node.keysList, List.mem_append] at hx
      rcases hx with hx1 | hx2
      · obtain ⟨h1, h2⟩ := hbd1 x hx1
        exact ⟨h1, lt_of_lt_of_le h2 hle2⟩
      · obtain ⟨h1, h2⟩ := hbd2 x hx2
        exact ⟨le_trans (le_of_lt hlt1) h1, h2⟩

end

/-- `mapDescendants regenerateKey` keeps the root key but mints distinct
fresh keys, taken from the traversed counter interval, for every strict
descendant. -/
theorem regenDescendants_spec (n : Node) (c : Nat) :
    c ≤ (Node.regenDescendants n c).2 ∧
      (Node.keysList (Node.regenDescendants n c).1.childNodes).Nodup ∧
      ∀ x ∈ Node.keysList (Node.regenDescendants n c).1.childNodes,
        c ≤ x ∧ x < (Node.regenDescendants n c).2 := by
  cases n with
  | text k s m =>
    refine ⟨le_refl c,
      by simp [Node.regenDescendants, Node.childNodes, Node.keysList], ?_⟩
    intro x hx
    simp [Node.regenDescendants, Node.childNodes, Node.keysList] at hx
  | elem kd k t v d ns =>
    obtain ⟨hle, hnd, hbd⟩ := regenForest_spec ns c
    dsimp only [Node.regenDescendants, Node.childNodes]
    exact ⟨hle, hnd, hbd⟩

mutual

/-- Splitting a node keeps its keys and mints distinct fresh keys for the
spine of the second half, taken from the traversed counter interval. -/
theorem splitNode_spec : ∀ (n : Node) (off c : Nat),
    c ≤ (n.splitNode off c).2.2 ∧
    ∃ fr : Multiset Nat,
      ((n.splitNode off c).1.keys : Multiset Nat) +
          ((n.splitNode off c).2.1.keys : Multiset Nat) =
        (n.keys : Multiset Nat) + fr ∧
      fr.Nodup ∧ ∀ x ∈ fr, c ≤ x ∧ x < (n.splitNode off c).2.2
  | .text k s m, off, c => by
    refine ⟨Nat.le_succ c, {c}, ?_, Multiset.nodup_singleton c, ?_⟩
    · dsimp only [Node.splitNode]
      simp only [Node.keys, ← Multiset.cons_coe, ← Multiset.singleton_add]
      simp
    · intro x hx
      rw [Multiset.mem_singleton] at hx
      subst hx
      exact ⟨le_refl x, Nat.lt_succ_self x⟩
  | .elem kd k t v d ns, off, c => by
    obtain ⟨hle, fr, heq, hnd, hbd⟩ := splitChildren_spec ns off c
    dsimp only [Node.splitNode]
    refine ⟨le_trans hle (Nat.le_succ _),
      fr + {(Node.splitChildren ns off c).2.2}, ?_, ?_, ?_⟩
    · simp only [Node.keys, ← Multiset.cons_coe, ← Multiset.singleton_add]
      exact mset_shuffle1 heq
    · rw [Multiset.nodup_add]
      refine ⟨hnd, Multiset.nodup_singleton _, Multiset.disjoint_left.2 ?_⟩
      intro x hx hx2
      rw [Multiset.mem_singleton] at hx2
      rw [hx2] at hx
      exact absurd (hbd _ hx).2 (lt_irrefl _)
    · intro x hx
      rcases Multiset.mem_add.1 hx with hx1 | hx1
      · obtain ⟨h1, h2⟩ := hbd x hx1
        exact ⟨h1, lt_of_lt_of_le h2 (Nat.le_succ _)⟩
      · rw [Multiset.mem_singleton] at hx1
        rw [hx1]
        exact ⟨hle, Nat.lt_succ_self _⟩

theorem splitChildren_spec : ∀ (ns : List Node) (off c : Nat),
    c ≤ (Node.splitChildren ns off c).2.2 ∧
    ∃ fr : Multiset Nat,
      (Node.keysList (Node.splitChildren ns off c).1 : Multiset Nat) +
          (Node.keysList (Node.splitChildren ns off c).2.1 : Multiset Nat) =
        (Node.keysList ns : Multiset Nat) + fr ∧
      fr.Nodup ∧ ∀ x ∈ fr, c ≤ x ∧ x < (Node.splitChildren ns off c).2.2
  | [], off, c => by
    refine ⟨le_refl c, 0, by simp [Node.splitChildren, Node.keysList],
      Multiset.nodup_zero, ?_⟩
    intro x hx
    simp at hx
  | n :: ns, off, c => by
    dsimp only [Node.splitChildren]
    by_cases hoff : off ≤ n.length
    · rw [if_pos hoff]
      obtain ⟨hle, fr, heq, hnd, hbd⟩ := splitNode_spec n off c
      refine ⟨hle, fr, ?_, hnd, hbd⟩
      simp only [Node.keysList, List.append_nil, ← Multiset.coe_add]
      exact mset_shuffle2 heq _
    · rw [if_neg hoff]
      obtain ⟨hle, fr, heq, hnd, hbd⟩ := splitChildren_spec ns (off - n.length) c
      refine ⟨hle, fr, ?_, hnd, hbd⟩
      simp only [Node.keysList, ← Multiset.coe_add]
      exact mset_shuffle3 heq _

end

mutual

/-- `splitAtKey` keeps the tree's keys and mints distinct fresh keys from
the traversed counter interval. -/
theorem splitAtKey_spec : ∀ (n : Node) (k off c : Nat) (r : Node × Nat),
    Node.splitAtKey n k off c = some r →
      c ≤ r.2 ∧ ∃ fr : Multiset Nat,
        (r.1.keys : Multiset Nat) = (n.keys : Multiset Nat) + fr ∧
        fr.Nodup ∧ ∀ x ∈ fr, c ≤ x ∧ x < r.2
  | .text _ _ _, k, off, c, r => by simp [Node.splitAtKey]
  | .elem kd k' t v d ns, k, off, c, r => by
    simp only [Node.splitAtKey]
    cases h : Node.splitAtKeyList ns k off c with
    | none => simp
    | some rr =>
      intro hr
      obtain rfl : _ = r := Option.some_inj.1 hr
      obtain ⟨hle, fr, heq, hnd, hbd⟩ := splitAtKeyList_spec ns k off c rr h
      refine ⟨hle, fr, ?_, hnd, hbd⟩
      simp only [Node.keys, ← Multiset.cons_coe, ← Multiset.singleton_add, heq]
      simp only [add_comm, add_left_comm, add_assoc]

theorem splitAtKeyList_spec : ∀ (ns : List Node) (k off c : Nat)
    (r : List Node × Nat),
    Node.splitAtKeyList ns k off c = some r →
      c ≤ r.2 ∧ ∃ fr : Multiset Nat,
        (Node.keysList r.1 : Multiset Nat) =
          (Node.keysList ns : Multiset Nat) + fr ∧
        fr.Nodup ∧ ∀ x ∈ fr, c ≤ x ∧ x < r.2
  | [], k, off, c, r => by simp [Node.splitAtKeyList]
  | n :: ns, k, off, c, r => by
    dsimp only [Node.splitAtKeyList]
    split
    · intro hr
      obtain rfl : _ = r := Option.some_inj.1 hr
      obtain ⟨hle, fr, heq, hnd, hbd⟩ := splitNode_spec n off c
      refine ⟨hle, fr, ?_, hnd, hbd⟩
      simp only [Node.keysList, ← Multiset.coe_add]
      exact mset_shuffle2 heq _
    · cases h : Node.splitAtKey n k off c with
      | some rr =>
        intro hr
        obtain rfl : _ = r := Option.some_inj.1 hr
        obtain ⟨hle, fr, heq, hnd, hbd⟩ := splitAtKey_spec n k off c rr h
        refine ⟨hle, fr, ?_, hnd, hbd⟩
        simp only [Node.keysList, ← Multiset.coe_add, heq]
        simp only [add_comm, add_left_comm, add_assoc]
      | none =>
        cases h2 : Node.splitAtKeyList ns k off c with
        | none => simp
        | some rr =>
          intro hr
          obtain rfl : _ = r := Option.some_inj.1 hr
          obtain ⟨hle, fr, heq, hnd, hbd⟩ := splitAtKeyList_spec ns k off c rr h2
          refine ⟨hle, fr, ?_, hnd, hbd⟩
          simp only [Node.keysList, ← Multiset.coe_add, heq]
          simp only [add_comm, add_left_comm, add_assoc]

end

theorem keyStep_refl (ts : TState) : KeyStep ts ts 0 :=
  ⟨le_refl _, 0, by simp, Multiset.nodup_zero, by simp⟩

/-- A step that keeps the document's keys and the counter consumes and mints
nothing. -/
theorem keyStep_keys_eq {ts ts' : TState}
    (hd : ts'.document.keys = ts.document.keys)
    (hk : ts'.nextKey = ts.nextKey) : KeyStep ts ts' 0 :=
  ⟨le_of_eq hk.symm, 0, by rw [hd]; simp, Multiset.nodup_zero, by simp⟩

theorem keyStep_trans {a b c : TState} {c1 c2 : Multiset Nat}
    (h1 : KeyStep a b c1) (h2 : KeyStep b c c2) : KeyStep a c (c1 + c2) := by
  obtain ⟨hle1, f1, hc1, hnd1, hbd1⟩ := h1
  obtain ⟨hle2, f2, hc2, hnd2, hbd2⟩ := h2
  refine ⟨le_trans hle1 hle2, f1 + f2, ?_, ?_, ?_⟩
  · calc (c.document.keys : Multiset Nat)
        ≤ (b.document.keys : Multiset Nat) + c2 + f2 := hc2
      _ ≤ ((a.document.keys : Multiset Nat) + c1 + f1) + c2 + f2 :=
          add_le_add_right (add_le_add_right hc1 c2) f2
      _ = (a.document.keys : Multiset Nat) + (c1 + c2) + (f1 + f2) := by
          simp only [add_comm, add_left_comm, add_assoc]
  · rw [Multiset.nodup_add]
    refine ⟨hnd1, hnd2, Multiset.disjoint_left.2 ?_⟩
    intro x hx1 hx2
    exact absurd (hbd2 x hx2).1 (not_le.2 (hbd1 x hx1).2)
  · intro x hx
    rcases Multiset.mem_add.1 hx with h | h
    · obtain ⟨u, v⟩ := hbd1 x h
      exact ⟨u, lt_of_lt_of_le v hle2⟩
    · obtain ⟨u, v⟩ := hbd2 x h
      exact ⟨le_trans hle1 u, v⟩

theorem keyStep_trans0 {a b c : TState} (h1 : KeyStep a b 0)
    (h2 : KeyStep b c 0) : KeyStep a c 0 := by
  have h3 := keyStep_trans h1 h2
  simpa using h3

theorem invRes_mono {ts : TState} {R R' : Multiset Nat} (hle : R' ≤ R)
    (h : InvRes ts R) : InvRes ts R' := by
  obtain ⟨hnd, hbd⟩ := h
  constructor
  · exact Multiset.nodup_of_le (add_le_add_left hle _) hnd
  · intro k hk
    exact hbd k (Multiset.mem_of_le (add_le_add_left hle _) hk)

theorem inv_of_invRes {ts : TState} {R : Multiset Nat} (h : InvRes ts R) :
    Inv ts := invRes_mono (Multiset.zero_le R) h

/-- A key-accounting step consumes part of the reserve and keeps the key
invariant. -/
theorem invRes_transfer {ts ts' : TState} {consumed R : Multiset Nat}
    (h : InvRes ts (consumed + R)) (hs : KeyStep ts ts' consumed) :
    InvRes ts' R := by
  obtain ⟨hnd, hbd⟩ := h
  obtain ⟨hle, fresh, hc, hndf, hbdf⟩ := hs
  have hcov : (ts'.document.keys : Multiset Nat) + R ≤
      ((ts.document.keys : Multiset Nat) + (consumed + R)) + fresh := by
    calc (ts'.document.keys : Multiset Nat) + R
        ≤ ((ts.document.keys : Multiset Nat) + consumed + fresh) + R :=
          add_le_add_right hc R
      _ = ((ts.document.keys : Multiset Nat) + (consumed + R)) + fresh := by
          simp only [add_comm, add_left_comm, add_assoc]
  constructor
  · refine Multiset.nodup_of_le hcov ?_
    rw [Multiset.nodup_add]
    refine ⟨hnd, hndf, Multiset.disjoint_left.2 ?_⟩
    intro a ha hb
    exact absurd (hbdf a hb).1 (not_le.2 (hbd a ha))
  · intro k hk
    rcases Multiset.mem_add.1 (Multiset.mem_of_le hcov hk) with h | h
    · exact lt_of_lt_of_le (hbd k h) hle
    · exact (hbdf k h).2

theorem invRes_step0 {ts ts' : TState} {R : Multiset Nat} (h : InvRes ts R)
    (hs : KeyStep ts ts' 0) : InvRes ts' R := by
  refine invRes_transfer ?_ hs
  rwa [zero_add]

theorem invRes_consume {ts ts' : TState} {R c : Multiset Nat}
    (h : InvRes ts R) (hc : c ≤ R) (hs : KeyStep ts ts' c) :
    InvRes ts' (R - c) := by
  refine invRes_transfer ?_ hs
  rwa [add_tsub_cancel_of_le hc]

theorem keyStep_addMarkByKey (ts : TState) (k i l : Nat) (m : Mark)
    (o : Opts) : KeyStep ts (addMarkByKey ts k i l m o) 0 :=
  keyStep_keys_eq (editLeaf_keys k _ ts.document) rfl

theorem keyStep_removeMarkByKey (ts : TState) (k i l : Nat) (m : Mark)
    (o : Opts) : KeyStep ts (removeMarkByKey ts k i l m o) 0 :=
  keyStep_keys_eq (editLeaf_keys k _ ts.document) rfl

theorem keyStep_removeTextByKey (ts : TState) (k i l : Nat) (o : Opts) :
    KeyStep ts (removeTextByKey ts k i l o) 0 :=
  keyStep_keys_eq (editLeaf_keys k _ ts.document) rfl

theorem keyStep_insertTextByKey (ts : TState) (k i : Nat) (s : Str)
    (ml : List Mark) (o : Opts) :
    KeyStep ts (insertTextByKey ts k i s ml o) 0 :=
  keyStep_keys_eq (editLeaf_keys k _ ts.document) rfl

theorem keyStep_normalizeNodeByKey (ts : TState) (k : Nat) :
    KeyStep ts (normalizeNodeByKey ts k) 0 :=
  keyStep_keys_eq rfl rfl

theorem keyStep_splitNodeByKey (ts : TState) (k off : Nat) (o : Opts) :
    KeyStep ts (splitNodeByKey ts k off o) 0 := by
  unfold splitNodeByKey
  dsimp only
  cases h : Node.splitAtKey ts.document k off ts.nextKey with
  | none => exact keyStep_keys_eq rfl rfl
  | some r =>
    obtain ⟨hle, fr, heq, hnd, hbd⟩ := splitAtKey_spec ts.document k off ts.nextKey r h
    refine ⟨hle, fr, ?_, hnd, hbd⟩
    rw [heq]
    simp

theorem keyStep_removeNodeByKey (ts : TState) (k : Nat) (o : Opts) :
    KeyStep ts (removeNodeByKey ts k o) 0 := by
  unfold removeNodeByKey
  dsimp only
  cases h : ts.document.takeOut k with
  | none => exact keyStep_keys_eq rfl rfl
  | some r =>
    refine ⟨le_refl _, 0, ?_, Multiset.nodup_zero, by simp⟩
    rw [← takeOut_mkeys ts.document k r h]
    simp only [add_zero]
    exact Multiset.le_add_right _ _

theorem keyStep_insertNodeByKey (ts : TState) (pk i : Nat) (n : Node)
    (o : Opts) :
    KeyStep ts (insertNodeByKey ts pk i n o) (n.keys : Multiset Nat) := by
  unfold insertNodeByKey
  dsimp only
  cases h : Node.insertChild ts.document pk i n with
  | none =>
    refine ⟨le_refl _, 0, ?_, Multiset.nodup_zero, by simp⟩
    simp only [add_zero]
    exact Multiset.le_add_right _ _
  | some d =>
    refine ⟨le_refl _, 0, ?_, Multiset.nodup_zero, by simp⟩
    rw [insertChild_mkeys ts.document pk i n d h]
    simp

theorem keyStep_moveNodeByKey (ts : TState) (k pk i : Nat) (o : Opts) :
    KeyStep ts (moveNodeByKey ts k pk i o) 0 := by
  unfold moveNodeByKey
  dsimp only
  cases h : ts.document.takeOut k with
  | none => exact keyStep_keys_eq rfl rfl
  | some r =>
    dsimp only
    cases h2 : Node.insertChild r.1 pk i r.2 with
    | none => exact keyStep_keys_eq rfl rfl
    | some d =>
      refine ⟨le_refl _, 0, ?_, Multiset.nodup_zero, by simp⟩
      rw [insertChild_mkeys r.1 pk i r.2 d h2, takeOut_mkeys ts.document k r h]
      simp

theorem keyStep_foldl_zero {α : Type} (f : TState → α → TState)
    (hf : ∀ ts x, KeyStep ts (f ts x) 0) (l : List α) (ts : TState) :
    KeyStep ts (l.foldl f ts) 0 := by
  induction l generalizing ts with
  | nil => exact keyStep_refl ts
  | cons x xs ih => exact keyStep_trans0 (hf ts x) (ih (f ts x))

/-- A fold of node insertions consumes exactly the keys of the inserted
nodes. -/
theorem keyStep_insertFold (ts : TState) (pk : Nat) (g : Nat × Node → Nat)
    (l : List (Nat × Node)) :
    KeyStep ts (l.foldl
        (fun acc ic => insertNodeByKey acc pk (g ic) ic.2 OPTS) ts)
      (Node.keysList (l.map Prod.snd) : Multiset Nat) := by
  induction l generalizing ts with
  | nil => simpa [Node.keysList] using keyStep_refl ts
  | cons p ps ih =>
    have h1 := keyStep_insertNodeByKey ts pk (g p) p.2 OPTS
    have h2 := ih (insertNodeByKey ts pk (g p) p.2 OPTS)
    have h3 := keyStep_trans h1 h2
    simpa only [List.foldl_cons, List.map_cons, Node.keysList,
      Multiset.coe_add] using h3

theorem keyStep_ite {ts : TState} (c : Prop) [Decidable c] {b1 b2 : TState}
    {k : Multiset Nat} (h1 : KeyStep ts b1 k) (h2 : KeyStep ts b2 k) :
    KeyStep ts (if c then b1 else b2) k := by
  split <;> assumption

/-- `deleteAtRange` never introduces a document key that is not freshly
minted. -/
theorem keyStep_deleteAtRange (ts : TState) (range : Range) (options : Opts) :
    KeyStep ts (deleteAtRange ts range options) 0 := by
  have hmid : ∀ (l : List Node) (a : TState), KeyStep a
      (l.foldl (fun acc c => removeNodeByKey acc c.key OPTS) a) 0 :=
    fun l a => keyStep_foldl_zero _
      (fun a c => keyStep_removeNodeByKey a c.key OPTS) l a
  unfold deleteAtRange
  by_cases hcol : range.isCollapsed = true
  · rw [if_pos hcol]
    exact keyStep_refl ts
  rw [if_neg hcol]
  by_cases hk : (range.startKey == range.endKey) = true
  · rw [if_pos hk]
    exact keyStep_removeTextByKey ts _ _ _ _
  rw [if_neg hk]
  dsimp only
  split
  all_goals try exact keyStep_refl ts
  split
  all_goals try exact keyStep_refl ts
  rename_i sc0 ec0 hsc0 hec0
  have hsplit2 : ∀ o1 o2 : Nat, KeyStep ts
      (splitNodeByKey (splitNodeByKey ts sc0.key o1 OPTS) ec0.key o2 OPTS) 0 :=
    fun o1 o2 => keyStep_trans0 (keyStep_splitNodeByKey _ _ _ _)
      (keyStep_splitNodeByKey _ _ _ _)
  generalize ((if sc0.isText = true then 0 else sc0.getOffset range.startKey)
    + range.startOffset) = o1
  generalize ((if ec0.isText = true then 0 else ec0.getOffset range.endKey)
    + range.endOffset) = o2
  split
  all_goals try exact hsplit2 _ _
  split
  all_goals try exact hsplit2 _ _
  split
  all_goals try exact keyStep_trans0 (hsplit2 _ _) (hmid _ _)
  rename_i startBlock endBlock hsb heb
  have hmoves : ∀ (l : List (Nat × Node)) (a : TState), KeyStep a
      (l.foldl (fun acc ic => moveNodeByKey acc ic.2.key startBlock.key
        (startBlock.childNodes.length + ic.1) OPTS) a) 0 :=
    fun l a => keyStep_foldl_zero _
      (fun a ic => keyStep_moveNodeByKey a ic.2.key startBlock.key _ OPTS) l a
  by_cases hbk : (startBlock.key != endBlock.key) = true
  · rw [if_pos hbk]
    by_cases hn : (options.normalize.getD true) = true
    · rw [if_pos hn]
      exact keyStep_trans0
        (keyStep_trans0
          (keyStep_trans0 (keyStep_trans0 (hsplit2 _ _) (hmid _ _)) (hmoves _ _))
          (keyStep_removeNodeByKey _ _ OPTS))
        (keyStep_normalizeNodeByKey _ _)
    · rw [if_neg hn]
      exact keyStep_trans0
        (keyStep_trans0 (keyStep_trans0 (hsplit2 _ _) (hmid _ _)) (hmoves _ _))
        (keyStep_removeNodeByKey _ _ OPTS)
  · rw [if_neg hbk]
    by_cases hn : (options.normalize.getD true) = true
    · rw [if_pos hn]
      exact keyStep_trans0 (keyStep_trans0 (hsplit2 _ _) (hmid _ _))
        (keyStep_normalizeNodeByKey _ _)
    · rw [if_neg hn]
      exact keyStep_trans0 (hsplit2 _ _) (hmid _ _)

/-- The key invariant survives the optional final normalization step. -/
theorem inv_norm_ite (nz : Bool) (k : Nat) (R : Multiset Nat) {b : TState}
    (h : InvRes b R) :
    Inv (if nz = true then normalizeNodeByKey b k else b) := by
  split
  · exact inv_of_invRes (invRes_step0 h (keyStep_normalizeNodeByKey b k))
  · exact inv_of_invRes h

/-- The tail of the fragment insertion keeps keys globally unique, provided
the first block's keys are still covered by the fresh-key reserve. -/
theorem insertFragmentTail_inv {ts : TState} {startKey startOffset : Nat}
    {isAtStart : Bool} {firstBlock lastBlock parent startChild0 : Node}
    {index offset : Nat} {normalize : Bool} {R : Multiset Nat}
    (h : InvRes ts R) (hfb : (firstBlock.keys : Multiset Nat) ≤ R) :
    Inv (insertFragmentTail ts startKey startOffset isAtStart firstBlock
      lastBlock parent startChild0 index offset normalize) := by
  unfold insertFragmentTail
  dsimp only
  have h1 : InvRes (if (startOffset != 0) = true
      then splitNodeByKey ts startChild0.key offset OPTS else ts) R := by
    split
    · exact invRes_step0 h (keyStep_splitNodeByKey _ _ _ _)
    · exact h
  generalize hts1 : (if (startOffset != 0) = true
      then splitNodeByKey ts startChild0.key offset OPTS else ts) = ts1 at h1 ⊢
  split
  all_goals try exact inv_of_invRes h1
  rename_i startText hst
  split
  all_goals try exact inv_of_invRes h1
  rename_i startBlock hsb
  split
  all_goals try exact inv_of_invRes h1
  rename_i startChild hsc
  refine inv_norm_ite normalize parent.key 0 ?_
  split
  · refine invRes_mono (Multiset.zero_le _)
      (invRes_consume (invRes_step0 ?_ (keyStep_removeNodeByKey _ _ _)) hfb
        (keyStep_insertNodeByKey _ _ _ _ _))
    split
    · exact invRes_step0 h1 (keyStep_foldl_zero
        (fun acc (ic : Nat × Node) => moveNodeByKey acc ic.2.key lastBlock.key
          (lastBlock.childNodes.length + ic.1) OPTS)
        (fun a ic => keyStep_moveNodeByKey a ic.2.key lastBlock.key _ OPTS) _ ts1)
    · exact h1
  · have hcons : (Node.keysList ((firstBlock.childNodes.enum).map Prod.snd) :
        Multiset Nat) ≤ R := by
      rw [List.enum_map_snd]
      refine le_trans ?_ hfb
      rw [keys_eq_key_add_children firstBlock]
      exact le_add_self
    refine invRes_mono (Multiset.zero_le _)
      (invRes_consume ?_ hcons (keyStep_insertFold _ startBlock.key _ _))
    split
    · exact invRes_step0 h1 (keyStep_foldl_zero
        (fun acc (ic : Nat × Node) => moveNodeByKey acc ic.2.key lastBlock.key
          (lastBlock.childNodes.length + ic.1) OPTS)
        (fun a ic => keyStep_moveNodeByKey a ic.2.key lastBlock.key _ OPTS) _ ts1)
    · exact h1

/-- The body of `insertFragmentAtRange` keeps keys globally unique: the
regeneration step mints distinct fresh keys for every strict descendant of
the fragment, and each inserted node's keys are drawn from that reserve. -/
theorem insertFragmentFinish_inv (ts : TState) (range : Range)
    (fragment0 : Node) (normalize : Bool) (h : Inv ts) :
    Inv (insertFragmentFinish ts range fragment0 normalize) := by
  unfold insertFragmentFinish
  dsimp only
  obtain ⟨hcle, hndf, hbdf⟩ := regenDescendants_spec fragment0 ts.nextKey
  have h0 : InvRes
      { ts with nextKey := (fragment0.regenDescendants ts.nextKey).2 }
      (Node.keysList (fragment0.regenDescendants ts.nextKey).1.childNodes :
        Multiset Nat) := by
    obtain ⟨hnd0, hbd0⟩ := h
    constructor
    · rw [Multiset.nodup_add]
      refine ⟨by simpa using hnd0, Multiset.coe_nodup.2 hndf,
        Multiset.disjoint_left.2 ?_⟩
      intro a ha hb
      have h1 : a < ts.nextKey := hbd0 a (by simpa using ha)
      exact absurd (hbdf a (Multiset.mem_coe.1 hb)).1 (not_le.2 h1)
    · intro k hk
      rcases Multiset.mem_add.1 hk with hk1 | hk2
      · exact lt_of_lt_of_le (hbd0 k (by simpa using hk1)) hcle
      · exact (hbdf k (Multiset.mem_coe.1 hk2)).2
  split
  all_goals try exact inv_of_invRes h0
  rename_i startText hst
  split
  all_goals try exact inv_of_invRes h0
  rename_i startBlock hsb
  split
  all_goals try exact inv_of_invRes h0
  rename_i startChild hsc
  split
  all_goals try exact inv_of_invRes h0
  rename_i parent hpar
  split
  all_goals try exact inv_of_invRes h0
  rename_i firstBlock lastBlock hhead hlast
  have hfbS : SubtreeL firstBlock
      (fragment0.regenDescendants ts.nextKey).1.childNodes := by
    obtain ⟨tk, hcb⟩ := mem_blocksOf (mem_of_head? hhead)
    unfold closestBlock at hcb
    exact (getClosest_facts hcb).1
  have hfble : (firstBlock.keys : Multiset Nat) ≤
      (Node.keysList (fragment0.regenDescendants ts.nextKey).1.childNodes :
        Multiset Nat) := subtreeL_keys_le hfbS
  by_cases hne : (firstBlock.key != lastBlock.key) = true
  · rw [if_pos hne]
    cases hfu : getFurthest (fragment0.regenDescendants ts.nextKey).1
        firstBlock.key (fun p => p.childNodes.length == 1) with
    | none =>
      simp only [Option.getD_none]
      have hexS : ((fragment0.regenDescendants ts.nextKey).1.takeOut
          firstBlock.key).isSome = true :=
        takeOut_isSome _ firstBlock.key (subtreeL_key_mem hfbS)
      obtain ⟨r, hrtk⟩ := Option.isSome_iff_exists.1 hexS
      rw [hrtk]
      dsimp only
      obtain ⟨hr2key, hr2S⟩ := takeOut_subtree _ firstBlock.key r hrtk
      have hreq : r.2 = firstBlock :=
        subtreeL_unique _ hndf r.2 firstBlock hr2S hfbS hr2key
      have hacc : (Node.keysList r.1.childNodes : Multiset Nat) +
          (r.2.keys : Multiset Nat) =
          (Node.keysList
            (fragment0.regenDescendants ts.nextKey).1.childNodes :
              Multiset Nat) := by
        have hmk := takeOut_mkeys _ firstBlock.key r hrtk
        have hroot := takeOut_root_key _ firstBlock.key r hrtk
        rw [keys_eq_key_add_children r.1,
          keys_eq_key_add_children ((fragment0.regenDescendants ts.nextKey).1),
          hroot] at hmk
        have h5 : {Node.key (fragment0.regenDescendants ts.nextKey).1} +
            ((Node.keysList r.1.childNodes : Multiset Nat) +
              (r.2.keys : Multiset Nat)) =
            {Node.key (fragment0.regenDescendants ts.nextKey).1} +
            (Node.keysList
              (fragment0.regenDescendants ts.nextKey).1.childNodes :
                Multiset Nat) := by
          rw [← hmk]
          simp only [add_comm, add_left_comm, add_assoc]
        exact add_left_cancel h5
      have hcons : (Node.keysList ((r.1.childNodes.enum).map Prod.snd) :
          Multiset Nat) ≤
          (Node.keysList
            (fragment0.regenDescendants ts.nextKey).1.childNodes :
              Multiset Nat) := by
        rw [List.enum_map_snd, ← hacc]
        exact Multiset.le_add_right _ _
      refine insertFragmentTail_inv
        (invRes_consume h0 hcons (keyStep_insertFold _ parent.key _ _)) ?_
      have hrw : (Node.keysList
            (fragment0.regenDescendants ts.nextKey).1.childNodes :
              Multiset Nat) -
          (Node.keysList ((r.1.childNodes.enum).map Prod.snd) : Multiset Nat) =
          (r.2.keys : Multiset Nat) := by
        rw [List.enum_map_snd, ← hacc, add_tsub_cancel_left]
      rw [hrw, hreq]
    | some lp =>
      simp only [Option.getD_some]
      obtain ⟨hlpS, l, hdesc, hlk, hllp⟩ := getFurthest_facts hfu
      have hlS : SubtreeL l
          (fragment0.regenDescendants ts.nextKey).1.childNodes := by
        obtain ⟨c, hc, hs⟩ := hlpS
        exact ⟨c, hc, Subtree.trans hllp hs⟩
      have hleq : l = firstBlock :=
        subtreeL_unique _ hndf l firstBlock hlS hfbS hlk
      have hfblp : Subtree firstBlock lp := hleq ▸ hllp
      have hexS : ((fragment0.regenDescendants ts.nextKey).1.takeOut
          lp.key).isSome = true :=
        takeOut_isSome _ lp.key (subtreeL_key_mem hlpS)
      obtain ⟨r, hrtk⟩ := Option.isSome_iff_exists.1 hexS
      rw [hrtk]
      dsimp only
      obtain ⟨hr2key, hr2S⟩ := takeOut_subtree _ lp.key r hrtk
      have hreq : r.2 = lp := subtreeL_unique _ hndf r.2 lp hr2S hlpS hr2key
      have hacc : (Node.keysList r.1.childNodes : Multiset Nat) +
          (r.2.keys : Multiset Nat) =
          (Node.keysList
            (fragment0.regenDescendants ts.nextKey).1.childNodes :
              Multiset Nat) := by
        have hmk := takeOut_mkeys _ lp.key r hrtk
        have hroot := takeOut_root_key _ lp.key r hrtk
        rw [keys_eq_key_add_children r.1,
          keys_eq_key_add_children ((fragment0.regenDescendants ts.nextKey).1),
          hroot] at hmk
        have h5 : {Node.key (fragment0.regenDescendants ts.nextKey).1} +
            ((Node.keysList r.1.childNodes : Multiset Nat) +
              (r.2.keys : Multiset Nat)) =
            {Node.key (fragment0.regenDescendants ts.nextKey).1} +
            (Node.keysList
              (fragment0.regenDescendants ts.nextKey).1.childNodes :
                Multiset Nat) := by
          rw [← hmk]
          simp only [add_comm, add_left_comm, add_assoc]
        exact add_left_cancel h5
      have hcons : (Node.keysList ((r.1.childNodes.enum).map Prod.snd) :
          Multiset Nat) ≤
          (Node.keysList
            (fragment0.regenDescendants ts.nextKey).1.childNodes :
              Multiset Nat) := by
        rw [List.enum_map_snd, ← hacc]
        exact Multiset.le_add_right _ _
      refine insertFragmentTail_inv
        (invRes_consume h0 hcons (keyStep_insertFold _ parent.key _ _)) ?_
      have hrw : (Node.keysList
            (fragment0.regenDescendants ts.nextKey).1.childNodes :
              Multiset Nat) -
          (Node.keysList ((r.1.childNodes.enum).map Prod.snd) : Multiset Nat) =
          (r.2.keys : Multiset Nat) := by
        rw [List.enum_map_snd, ← hacc, add_tsub_cancel_left]
      rw [hrw, hreq]
      exact subtree_keys_le hfblp
  · rw [if_neg hne]
    exact insertFragmentTail_inv h0 hfble

/-! ## C2: fragment insertion preserves global key uniqueness -/

/-- C2: `insertFragmentAtRange` regenerates the key of every strict
descendant of the fragment before any insertion, so on a transform state
whose document keys are globally unique (and minted below the key counter),
inserting any fragment — including one derived from the same document, whose
keys all collide — leaves every node key in the resulting document globally
unique. -/
theorem insertFragment_preserves_key_uniqueness (ts : TState) (range : Range)
    (fragment : Node) (options : Opts) (h : Inv ts) :
    Inv (insertFragmentAtRange ts range fragment options) := by
  unfold insertFragmentAtRange
  dsimp only
  have h1 : Inv (if range.isExpanded = true
      then deleteAtRange ts range OPTS else ts) := by
    split
    · exact invRes_step0 h (keyStep_deleteAtRange ts range OPTS)
    · exact h
  split
  · exact h1
  · exact insertFragmentFinish_inv _ _ _ _ h1

/-- Witness for C2: inserting a fragment that is an exact copy of `docAB`
(sharing every one of its keys) at a caret inside `docAB` keeps every node
key of the resulting document unique. -/
theorem insertFragment_preserves_key_uniqueness_witness :
    Inv (insertFragmentAtRange tsAB rCaret fragAB noOpts) :=
  insertFragment_preserves_key_uniqueness tsAB rCaret fragAB noOpts
    (by unfold Inv InvRes; decide)

/-! ## C1: cross-block deletion merges the trailing block into the leading
one -/

/-- C1: on an expanded range whose start and end leaves differ and, after the
two boundary splits, lie in different blocks, `deleteAtRange` removes the
common ancestor's direct children strictly between the two split children,
then moves every child of the trailing (end) block onto the end of the
leading (start) block in order, removes the trailing block's chain up to its
furthest single-child ancestor, and finally normalizes the ancestor; on the
two sibling paragraphs `"abc"` / `"def"` with the range from the end of the
first to the start of the second, a single block reading `"abcdef"` remains. -/
theorem delete_cross_block_merge (ts : TState) (range : Range) (options : Opts)
    (anc0 sc0 ec0 : Node) (ts2 : TState) (anc sc ec sB eB : Node)
    (h1 : range.isExpanded = true)
    (h2 : (range.startKey == range.endKey) = false)
    (hca0 : commonAncestor ts.document range.startKey range.endKey = some anc0)
    (hsc0 : anc0.highestChild range.startKey = some sc0)
    (hec0 : anc0.highestChild range.endKey = some ec0)
    (hts2 : ts2 = splitNodeByKey
      (splitNodeByKey ts sc0.key
        ((if sc0.isText = true then 0 else sc0.getOffset range.startKey)
          + range.startOffset) OPTS)
      ec0.key
      ((if ec0.isText = true then 0 else ec0.getOffset range.endKey)
        + range.endOffset) OPTS)
    (hca : commonAncestor ts2.document range.startKey range.endKey = some anc)
    (hsc : anc.highestChild range.startKey = some sc)
    (hec : anc.highestChild range.endKey = some ec)
    (hsb : closestBlock ts2.document range.startKey = some sB)
    (hnt : (nextText ts2.document range.endKey).bind
      (fun t => closestBlock ts2.document t.key) = some eB)
    (hdiff : (sB.key != eB.key) = true) :
    ((deleteAtRange ts range options).ops =
      ts2.ops ++
      (let startIndex := anc.childNodes.findIdx (fun c => c.key == sc.key)
       let endIndex := anc.childNodes.findIdx (fun c => c.key == ec.key)
       ((anc.childNodes.drop (startIndex + 1)).take (endIndex - startIndex)).map
         (fun c => Op.removeNode c.key false)) ++
      eB.childNodes.enum.map (fun ic =>
        Op.moveNode ic.2.key sB.key (sB.childNodes.length + ic.1) false) ++
      [Op.removeNode
        ((getFurthest ts2.document eB.key
          (fun p => p.childNodes.length == 1)).getD eB).key false] ++
      (if options.normalize.getD true = true then [Op.normalizeNode anc.key]
       else [])) ∧
    (deleteAtRange tsAB rAB noOpts).document =
      Node.elem .document 0 "document" false []
        [Node.elem .block 1 "paragraph" false []
          [.text 2 "abc".toList [], .text 7 "def".toList []]] ∧
    Node.textOf (deleteAtRange tsAB rAB noOpts).document = "abcdef".toList ∧
    (blocksOf (deleteAtRange tsAB rAB noOpts).document).map Node.key = [1] := by
  refine ⟨?_, rfl, rfl, rfl⟩
  have hc : range.isCollapsed = false := by simpa [Range.isExpanded] using h1
  unfold deleteAtRange
  rw [if_neg (by simp [hc]), if_neg (by simp [h2])]
  dsimp only
  simp only [hca0, hsc0, hec0]
  rw [← hts2]
  simp only [hca, hsc, hec, hsb, hnt]
  rw [if_pos hdiff]
  have hmid := foldl_ops_eq
    (fun acc (c : Node) => removeNodeByKey acc c.key OPTS)
    (fun c => Op.removeNode c.key false)
    (fun a c => removeNodeByKey_ops a c.key OPTS)
  have hmoves := foldl_ops_eq
    (fun acc (ic : Nat × Node) => moveNodeByKey acc ic.2.key sB.key
      (sB.childNodes.length + ic.1) OPTS)
    (fun ic => Op.moveNode ic.2.key sB.key (sB.childNodes.length + ic.1) false)
    (fun a ic => moveNodeByKey_ops a ic.2.key sB.key
      (sB.childNodes.length + ic.1) OPTS)
  by_cases hn : (options.normalize.getD true) = true
  · rw [if_pos hn, normalizeNodeByKey_ops, removeNodeByKey_ops, hmoves, hmid,
      if_pos hn]
    simp [List.append_assoc, show OPTS.normalize.getD true = false from rfl]
  · rw [if_neg hn, removeNodeByKey_ops, hmoves, hmid, if_neg hn]
    simp [List.append_assoc, show OPTS.normalize.getD true = false from rfl]

/-- Witness for C1 at the `"abc"` / `"def"` example: the recorded primitive
trace is the two boundary splits, the removal of the two middle children,
the move of the trailing block's single text onto the leading block, and the
removal of the emptied trailing block, before the final normalization. -/
theorem delete_cross_block_merge_witness :
    (deleteAtRange tsAB rAB noOpts).ops =
      [.splitNode 1 3 false, .splitNode 3 0 false,
       .removeNode 6 false, .removeNode 3 false,
       .moveNode 7 1 1 false, .removeNode 8 false,
       .normalizeNode 0] := by
  rw [(delete_cross_block_merge tsAB rAB noOpts docAB paraA paraB
    (splitNodeByKey
      (splitNodeByKey tsAB 1
        ((if paraA.isText = true then 0 else paraA.getOffset rAB.startKey)
          + rAB.startOffset) OPTS)
      3
      ((if paraB.isText = true then 0 else paraB.getOffset rAB.endKey)
        + rAB.endOffset) OPTS)
    (.elem .document 0 "document" false []
      [.elem .block 1 "paragraph" false [] [.text 2 "abc".toList []],
       .elem .block 6 "paragraph" false [] [.text 5 [] []],
       .elem .block 3 "paragraph" false [] [.text 4 [] []],
       .elem .block 8 "paragraph" false [] [.text 7 "def".toList []]])
    (.elem .block 1 "paragraph" false [] [.text 2 "abc".toList []])
    (.elem .block 3 "paragraph" false [] [.text 4 [] []])
    (.elem .block 1 "paragraph" false [] [.text 2 "abc".toList []])
    (.elem .block 8 "paragraph" false [] [.text 7 "def".toList []])
    rfl rfl rfl rfl rfl rfl rfl rfl rfl rfl rfl rfl).1]
  rfl

/-! ## C5: the five insertion cases of `insertBlockAtRange` -/

/-- C5: after deleting expanded content and collapsing to the start,
`insertBlockAtRange` issues exactly the primitives of the matching case —
next sibling of a void target, in-place replacement of an empty target,
previous sibling when the point is at the target's start, next sibling when
it is at the target's end, and otherwise a split of the target at the point
followed by an insertion immediately after the split — and then the single
trailing normalization of the parent. -/
theorem insertBlock_cases (ts : TState) (range : Range) (block : Node)
    (options : Opts) (ts1 : TState) (r1 : Range)
    (startText startBlock parent : Node)
    (hts1 : ts1 = if range.isExpanded then deleteAtRange ts range noOpts else ts)
    (hr1 : r1 = if range.isExpanded then range.collapseToStart else range)
    (hText : descendantAt ts1.document r1.startKey = some startText)
    (hBlock : closestBlock ts1.document r1.startKey = some startBlock)
    (hParent : parentOf ts1.document startBlock.key = some parent) :
    (insertBlockAtRange ts range block options).ops =
      ts1.ops ++
      (let nz := options.normalize.getD true
       let index := parent.childNodes.findIdx (fun c => c.key == startBlock.key)
       (if startBlock.isVoid = true then
          [Op.insertNode parent.key (index + 1) block nz]
        else if startBlock.isEmpty = true then
          [Op.removeNode startBlock.key true,
           Op.insertNode parent.key index block nz]
        else if r1.isAtStartOfN startBlock = true then
          [Op.insertNode parent.key index block nz]
        else if r1.isAtEndOfN startBlock = true then
          [Op.insertNode parent.key (index + 1) block nz]
        else
          [Op.splitNode startBlock.key
            (startBlock.getOffset startText.key + r1.startOffset) nz,
           Op.insertNode parent.key (index + 1) block nz]) ++
       (if nz = true then [Op.normalizeNode parent.key] else [])) := by
  unfold insertBlockAtRange
  dsimp only
  rw [← hts1, ← hr1]
  simp only [hText, hBlock, hParent]
  repeat' split
  all_goals
    simp [insertNodeByKey_ops, removeNodeByKey_ops, splitNodeByKey_ops,
      normalizeNodeByKey_ops, noOpts, List.append_assoc]

/-- Witness for C5: a caret strictly inside the paragraph `"abc"` takes the
final case — split the block at the point, insert right after the split,
normalize the parent once. -/
theorem insertBlock_cases_witness :
    (insertBlockAtRange tsAB rCaret newBlock noOpts).ops =
      [.splitNode 1 1 true, .insertNode 0 1 newBlock true, .normalizeNode 0] := by
  rw [insertBlock_cases tsAB rCaret newBlock noOpts tsAB rCaret
    (.text 2 "abc".toList []) paraA docAB rfl rfl rfl rfl rfl]
  rfl

/-! ## C7: insertion parent and sibling run of `wrapBlockAtRange` -/

/-- Trace of the shared tail of `wrapBlockAtRange`: inject the wrapper at
the index, move each sibling into it in order, normalize the parent. -/
theorem wrapBlockFinish_ops (ts : TState) (parent block : Node)
    (siblings : List Node) (index : Nat) (normalize : Bool) :
    (wrapBlockFinish ts parent block siblings index normalize).ops =
      ts.ops ++ [Op.insertNode parent.key index block false] ++
      siblings.enum.map (fun ic => Op.moveNode ic.2.key block.key ic.1 false) ++
      (if normalize = true then [Op.normalizeNode parent.key] else []) := by
  unfold wrapBlockFinish
  dsimp only
  have hfold := foldl_ops_eq
    (fun acc (ic : Nat × Node) => moveNodeByKey acc ic.2.key block.key ic.1 OPTS)
    (fun ic => Op.moveNode ic.2.key block.key ic.1 false)
    (fun a ic => moveNodeByKey_ops a ic.2.key block.key ic.1 OPTS)
    siblings.enum
  by_cases hn : normalize = true
  · rw [if_pos hn, if_pos hn, normalizeNodeByKey_ops, hfold, insertNodeByKey_ops]
    simp [List.append_assoc, show OPTS.normalize.getD true = false from rfl]
  · rw [if_neg hn, if_neg hn, hfold, insertNodeByKey_ops]
    simp [List.append_assoc, show OPTS.normalize.getD true = false from rfl]

/-- C7: when exactly one block is spanned, `wrapBlockAtRange` wraps that
block inside its direct parent at the block's own index; when several are,
it uses the closest common ancestor of the first and last spanned blocks
(the document when none exists) and wraps the run of that ancestor's direct
children from the child containing the first block through the child
containing the last, inserting the child-stripped wrapper at the run's start
index and moving each sibling of the run into it in order. -/
theorem wrapBlock_parent_and_run :
    (∀ (ts : TState) (range : Range) (block0 : Node) (options : Opts)
       (b parent : Node),
       blocksAtRange ts.document range.startKey range.endKey = [b] →
       parentOf ts.document b.key = some parent →
       (wrapBlockAtRange ts range block0 options).ops =
         ts.ops ++
         [Op.insertNode parent.key
           (parent.childNodes.findIdx (fun c => c.key == b.key))
           (clearChildren block0) false] ++
         [Op.moveNode b.key (clearChildren block0).key 0 false] ++
         (if options.normalize.getD true = true then
           [Op.normalizeNode parent.key] else [])) ∧
    (∀ (ts : TState) (range : Range) (block0 : Node) (options : Opts)
       (blocks : List Node) (fb lb parent : Node) (i0 i1 : Nat),
       blocksAtRange ts.document range.startKey range.endKey = blocks →
       2 ≤ blocks.length →
       blocks.head? = some fb →
       blocks.getLast? = some lb →
       parent = (getClosest ts.document fb.key (fun p1 =>
         (getClosest ts.document lb.key (fun p2 => p1.key == p2.key)).isSome)).getD
         ts.document →
       lastIdxWhere (fun node => node.key == fb.key || node.hasDescendant fb.key)
         parent.childNodes = some i0 →
       lastIdxWhere (fun node => node.key == lb.key || node.hasDescendant lb.key)
         parent.childNodes = some i1 →
       (wrapBlockAtRange ts range block0 options).ops =
         ts.ops ++
         [Op.insertNode parent.key i0 (clearChildren block0) false] ++
         ((parent.childNodes.drop i0).take (i1 + 1 - i0)).enum.map
           (fun ic => Op.moveNode ic.2.key (clearChildren block0).key ic.1 false) ++
         (if options.normalize.getD true = true then
           [Op.normalizeNode parent.key] else [])) := by
  constructor
  · intro ts range block0 options b parent hblocks hparent
    unfold wrapBlockAtRange
    dsimp only
    rw [hblocks]
    simp only [List.head?_cons, List.getLast?_singleton]
    rw [if_pos (by simp)]
    simp only [hparent]
    rw [wrapBlockFinish_ops]
    simp [List.append_assoc]
  · intro ts range block0 options blocks fb lb parent i0 i1 hblocks hlen hfb hlb
      hpar hi0 hi1
    unfold wrapBlockAtRange
    dsimp only
    rw [hblocks]
    simp only [hfb, hlb]
    rw [if_neg (by simp only [beq_iff_eq]; omega)]
    rw [← hpar]
    simp only [hi0, hi1]
    rw [wrapBlockFinish_ops]
    try simp [List.append_assoc]

/-- Witness for C7: the single-block case around `"abc"` and the two-block
case spanning both paragraphs of `docAB`. -/
theorem wrapBlock_parent_and_run_witness :
    (wrapBlockAtRange tsAB ⟨2, 0, 2, 3, false⟩ newBlock noOpts).ops =
      [.insertNode 0 0 (clearChildren newBlock) false,
       .moveNode 1 90 0 false, .normalizeNode 0] ∧
    (wrapBlockAtRange tsAB rABfull newBlock noOpts).ops =
      [.insertNode 0 0 (clearChildren newBlock) false,
       .moveNode 1 90 0 false, .moveNode 3 90 1 false, .normalizeNode 0] := by
  constructor
  · rw [wrapBlock_parent_and_run.1 tsAB ⟨2, 0, 2, 3, false⟩ newBlock noOpts
      paraA docAB rfl rfl]
    rfl
  · rw [wrapBlock_parent_and_run.2 tsAB rABfull newBlock noOpts
      [paraA, paraB] paraA paraB docAB 0 1 rfl (by decide) rfl rfl rfl rfl rfl]
    rfl

/-- Witness for C10 at `t = "abc"`, `s = 1`, `e = 2`, `p = "*"`. -/
theorem wrapText_default_suffix_witness :
    wrapTextAtRangeNoSuffix ⟨mkDoc "abc".toList [], 3, []⟩ ⟨2, 1, 2, 2, false⟩
        "*".toList noOpts =
      ⟨mkDoc "a*b*c".toList [], 3,
       [.insertText 2 1 "*".toList [] false,
        .insertText 2 3 "*".toList [] false]⟩ := by
  rw [wrapText_default_suffix "abc".toList "*".toList [] 1 2
    (by decide) (by decide)]
  rfl

end Slate
